import Mathlib

/-!
# Call / message log backend: list queries and batch synchronisation

A shallow embedding of `controllers/calls.js`, `controllers/messages.js`,
`models/Call.js` and `models/Message.js`, followed by the properties proved of it.

* JavaScript strings are lists of characters (`Str`).
* JavaScript numbers that hold integers are mathematical integers; the
  embedding is exact as long as the values stay inside the safe-integer range.
* `req.query` (as produced by the query-string parser) is a tree of strings,
  arrays and string-keyed objects (`QVal`); an object is the list of its own
  properties in enumeration order, which is the order `JSON.stringify` writes
  and `JSON.parse` rebuilds.
* `JSON.stringify`, the regular expression of the operator rewriting and
  `JSON.parse` are embedded character by character.
* The document store is a list of documents together with a counter for fresh
  `_id`s.  Neither schema sets the `strict` option, so a model persists exactly
  the paths its schema declares: a key of a payload that is not a schema path
  (the external `id` of a synced record among them) is not stored.
* What the handlers cannot control is a parameter (`Env`): whether a filter on
  a path the schema does not declare is passed on as written or stripped
  (`strictQuery`), which model calls fail with a store fault, and the clock.

The first part holds the definitions, the second part the lemmas and theorems.
-/

namespace CallSync

/-! ## Strings and query values -/

/-- A JavaScript string. -/
abbrev Str := List Char

/-- A value of `req.query`: a string, an array or a nested object. -/
inductive QVal where
  | str (s : Str)
  | arr (xs : List QVal)
  | obj (kvs : List (Str × QVal))

mutual
/-- Decidable equality of query values. -/
def QVal.decEq : (a b : QVal) → Decidable (a = b)
  | .str s, .str t =>
    if h : s = t then isTrue (by rw [h]) else isFalse (fun e => h (by cases e; rfl))
  | .arr xs, .arr ys =>
    match QVal.decEqElems xs ys with
    | isTrue h => isTrue (by rw [h])
    | isFalse h => isFalse (fun e => h (by cases e; rfl))
  | .obj xs, .obj ys =>
    match QVal.decEqMembers xs ys with
    | isTrue h => isTrue (by rw [h])
    | isFalse h => isFalse (fun e => h (by cases e; rfl))
  | .str _, .arr _ => isFalse (fun e => by cases e)
  | .str _, .obj _ => isFalse (fun e => by cases e)
  | .arr _, .str _ => isFalse (fun e => by cases e)
  | .arr _, .obj _ => isFalse (fun e => by cases e)
  | .obj _, .str _ => isFalse (fun e => by cases e)
  | .obj _, .arr _ => isFalse (fun e => by cases e)
/-- Decidable equality of arrays of query values. -/
def QVal.decEqElems : (a b : List QVal) → Decidable (a = b)
  | [], [] => isTrue rfl
  | [], _ :: _ => isFalse (fun e => by cases e)
  | _ :: _, [] => isFalse (fun e => by cases e)
  | x :: xs, y :: ys =>
    match QVal.decEq x y, QVal.decEqElems xs ys with
    | isTrue h1, isTrue h2 => isTrue (by rw [h1, h2])
    | isFalse h1, _ => isFalse (fun e => h1 (by cases e; rfl))
    | _, isFalse h2 => isFalse (fun e => h2 (by cases e; rfl))
/-- Decidable equality of objects of query values. -/
def QVal.decEqMembers : (a b : List (Str × QVal)) → Decidable (a = b)
  | [], [] => isTrue rfl
  | [], _ :: _ => isFalse (fun e => by cases e)
  | _ :: _, [] => isFalse (fun e => by cases e)
  | (k, x) :: xs, (l, y) :: ys =>
    if hk : k = l then
      match QVal.decEq x y, QVal.decEqMembers xs ys with
      | isTrue h1, isTrue h2 => isTrue (by rw [hk, h1, h2])
      | isFalse h1, _ => isFalse (fun e => h1 (by cases e; rfl))
      | _, isFalse h2 => isFalse (fun e => h2 (by cases e; rfl))
    else isFalse (fun e => hk (by cases e; rfl))
end

instance : DecidableEq QVal := QVal.decEq

instance : Inhabited QVal := ⟨QVal.str []⟩

/-- The query object: its own properties in enumeration order. -/
abbrev Query := List (Str × QVal)

/-- Property read `o[k]`. -/
def lookup {α : Type} (k : Str) : List (Str × α) → Option α
  | [] => none
  | (k', v) :: t => if k' = k then some v else lookup k t

/-- Property write `o[k] = v`: an existing property keeps its place, a new one is appended. -/
def setKey {α : Type} (k : Str) (v : α) : List (Str × α) → List (Str × α)
  | [] => [(k, v)]
  | (k', v') :: t => if k' = k then (k, v) :: t else (k', v') :: setKey k v t

/-- Property removal `delete o[k]`. -/
def deleteKey {α : Type} (k : Str) : List (Str × α) → List (Str × α)
  | [] => []
  | (k', v') :: t => if k' = k then deleteKey k t else (k', v') :: deleteKey k t

/-- The keys of an object. -/
def keys {α : Type} (o : List (Str × α)) : List Str := o.map Prod.fst

/-! ## JSON.stringify on query values -/

/-- Lower-case hexadecimal digit of a number below sixteen. -/
def hexDigit (n : Nat) : Char :=
  if n < 10 then Char.ofNat (48 + n) else Char.ofNat (87 + n)

/-- QuoteJSONString on one character: the two-character escapes, `\u00xx` for the
other control characters, the character itself otherwise. -/
def escapeChar (c : Char) : Str :=
  if c = '"' then ['\\', '"']
  else if c = '\\' then ['\\', '\\']
  else if c = Char.ofNat 8 then ['\\', 'b']
  else if c = Char.ofNat 12 then ['\\', 'f']
  else if c = Char.ofNat 10 then ['\\', 'n']
  else if c = Char.ofNat 13 then ['\\', 'r']
  else if c = Char.ofNat 9 then ['\\', 't']
  else if c.toNat < 32 then ['\\', 'u', '0', '0', hexDigit (c.toNat / 16), hexDigit (c.toNat % 16)]
  else [c]

/-- The escaped body of a JSON string literal. -/
def escape : Str → Str
  | [] => []
  | c :: cs => escapeChar c ++ escape cs

/-- QuoteJSONString: the literal with its quotes. -/
def quote (s : Str) : Str := '"' :: escape s ++ ['"']

mutual
/-- JSON.stringify (no indentation) of a query value. -/
def stringify : QVal → Str
  | .str s => quote s
  | .arr xs => '[' :: stringifyElems xs ++ [']']
  | .obj kvs => '\x7b' :: stringifyMembers kvs ++ ['\x7d']
/-- The comma-separated elements of an array. -/
def stringifyElems : List QVal → Str
  | [] => []
  | [v] => stringify v
  | v :: w :: vs => stringify v ++ ',' :: stringifyElems (w :: vs)
/-- The comma-separated `"key":value` members of an object. -/
def stringifyMembers : List (Str × QVal) → Str
  | [] => []
  | [(k, v)] => quote k ++ ':' :: stringify v
  | (k, v) :: p :: ps => quote k ++ ':' :: stringify v ++ ',' :: stringifyMembers (p :: ps)
end

/-! ## The operator rewriting `/\b(gt|gte|lt|lte|in)\b/g` -/

/-- The alternatives of the regular expression, in source order. -/
def operatorWords : List Str :=
  ["gt".toList, "gte".toList, "lt".toList, "lte".toList, "in".toList]

/-- The class `\w`: ASCII letters, digits and the underscore. -/
def isWordChar (c : Char) : Bool :=
  let n := c.toNat
  (48 ≤ n && n ≤ 57) || (65 ≤ n && n ≤ 90) || n == 95 || (97 ≤ n && n ≤ 122)

/-- Whether the character on one side of a position is a word character
(`none`: the position is an end of the input). -/
def isWordAt : Option Char → Bool
  | none => false
  | some c => isWordChar c

/-- The assertion `\b` between two neighbouring characters. -/
def wordBoundary (before after : Option Char) : Bool :=
  isWordAt before != isWordAt after

/-- One attempt of the regular expression at a position: `before` is the character
left of the position, `rest` the input from the position on.  The alternatives are
tried in order, each followed by the closing `\b`. -/
def matchOperator (before : Option Char) (rest : Str) : Option Str :=
  if wordBoundary before rest.head? then
    operatorWords.find? fun w =>
      w.isPrefixOf rest && wordBoundary w.getLast? (rest.drop w.length).head?
  else none

/-- The global replace, left to right: at a match `$` is written followed by the
matched text (`pending` counts the characters of the match still to be copied) and the
search resumes behind the match; elsewhere the character is copied. -/
def replaceFrom (before : Option Char) (pending : Nat) : Str → Str
  | [] => []
  | c :: cs =>
    match pending with
    | k + 1 => c :: replaceFrom (some c) k cs
    | 0 =>
      match matchOperator before (c :: cs) with
      | some w => '$' :: c :: replaceFrom (some c) (w.length - 1) cs
      | none => c :: replaceFrom (some c) 0 cs

/-- The call `queryStr.replace(/\b(gt|gte|lt|lte|in)\b/g, match => "$" + match)`. -/
def replaceOperators (s : Str) : Str := replaceFrom none 0 s

/-! ## JSON.parse

The fragment of the JSON grammar without insignificant white space, numbers and the
literals `true`, `false`, `null`: every text accepted here is accepted by `JSON.parse`
with the same result.  Escapes that name a surrogate code unit are rejected. -/

/-- Value of a hexadecimal digit. -/
def hexVal (c : Char) : Option Nat :=
  if 48 ≤ c.toNat ∧ c.toNat ≤ 57 then some (c.toNat - 48)
  else if 97 ≤ c.toNat ∧ c.toNat ≤ 102 then some (c.toNat - 87)
  else if 65 ≤ c.toNat ∧ c.toNat ≤ 70 then some (c.toNat - 55)
  else none

/-- The character named by a single-character escape. -/
def unescapeChar (e : Char) : Option Char :=
  if e = '"' then some '"'
  else if e = '\\' then some '\\'
  else if e = '/' then some '/'
  else if e = 'b' then some (Char.ofNat 8)
  else if e = 'f' then some (Char.ofNat 12)
  else if e = 'n' then some (Char.ofNat 10)
  else if e = 'r' then some (Char.ofNat 13)
  else if e = 't' then some (Char.ofNat 9)
  else none

/-- The character named by `\uXXXX`. -/
def unicodeEscape (a b c d : Char) : Option Char :=
  match hexVal a, hexVal b, hexVal c, hexVal d with
  | some x, some y, some z, some w =>
    let n := ((x * 16 + y) * 16 + z) * 16 + w
    if 0xD800 ≤ n ∧ n ≤ 0xDFFF then none else some (Char.ofNat n)
  | _, _, _, _ => none

/-- Prepend a character to a parsed string. -/
def consChar (c : Char) (r : Option (Str × Str)) : Option (Str × Str) :=
  r.map fun p => (c :: p.1, p.2)

/-- The body of a string literal, read from behind the opening quote up to and
including the closing quote; returns the string and the remaining input. -/
def parseStringBody : Str → Option (Str × Str)
  | [] => none
  | c :: rest =>
    if c = '"' then some ([], rest)
    else if c = '\\' then
      match rest with
      | [] => none
      | e :: rest1 =>
        if e = 'u' then
          match rest1 with
          | h1 :: h2 :: h3 :: h4 :: rest2 =>
            match unicodeEscape h1 h2 h3 h4 with
            | some ch => consChar ch (parseStringBody rest2)
            | none => none
          | _ => none
        else
          match unescapeChar e with
          | some ch => consChar ch (parseStringBody rest1)
          | none => none
    else if c.toNat < 32 then none
    else consChar c (parseStringBody rest)

/-- The object built from members in textual order: a repeated key overwrites. -/
def buildObject (members : List (Str × QVal)) : List (Str × QVal) :=
  members.foldl (fun o p => setKey p.1 p.2 o) []

mutual
/-- A JSON value at the head of the input (the first argument bounds the recursion). -/
def parseValue : Nat → Str → Option (QVal × Str)
  | 0, _ => none
  | n + 1, c :: rest =>
    if c = '"' then
      (parseStringBody rest).map fun p => (QVal.str p.1, p.2)
    else if c = '[' then
      match rest with
      | ']' :: rest1 => some (QVal.arr [], rest1)
      | _ => (parseElems n rest).map fun p => (QVal.arr p.1, p.2)
    else if c = '\x7b' then
      match rest with
      | '\x7d' :: rest1 => some (QVal.obj [], rest1)
      | _ => (parseMembers n rest).map fun p => (QVal.obj (buildObject p.1), p.2)
    else none
  | _ + 1, [] => none
/-- The elements of a non-empty array up to and including the closing bracket. -/
def parseElems : Nat → Str → Option (List QVal × Str)
  | 0, _ => none
  | n + 1, s =>
    match parseValue n s with
    | none => none
    | some (v, rest) =>
      match rest with
      | ',' :: rest1 => (parseElems n rest1).map fun p => (v :: p.1, p.2)
      | ']' :: rest1 => some ([v], rest1)
      | _ => none
/-- The members of a non-empty object up to and including the closing brace. -/
def parseMembers : Nat → Str → Option (List (Str × QVal) × Str)
  | 0, _ => none
  | n + 1, s =>
    match s with
    | '"' :: s1 =>
      match parseStringBody s1 with
      | none => none
      | some (k, rest) =>
        match rest with
        | ':' :: rest1 =>
          match parseValue n rest1 with
          | none => none
          | some (v, rest2) =>
            match rest2 with
            | ',' :: rest3 => (parseMembers n rest3).map fun p => ((k, v) :: p.1, p.2)
            | '\x7d' :: rest3 => some ([(k, v)], rest3)
            | _ => none
        | _ => none
    | _ => none
end

/-- The call `JSON.parse(text)`: `none` stands for the SyntaxError. -/
def jsonParse (text : Str) : Option QVal :=
  match parseValue (text.length + 1) text with
  | some (v, []) => some v
  | _ => none

/-! ## parseInt and the page parameters -/

/-- StrWhiteSpaceChar: white space and line terminators, as skipped by `parseInt`. -/
def isStrWhiteSpaceChar (c : Char) : Bool :=
  let n := c.toNat
  n == 0x09 || n == 0x0A || n == 0x0B || n == 0x0C || n == 0x0D || n == 0x20 ||
  n == 0xA0 || n == 0x1680 || (0x2000 ≤ n && n ≤ 0x200A) || n == 0x2028 || n == 0x2029 ||
  n == 0x202F || n == 0x205F || n == 0x3000 || n == 0xFEFF

/-- A decimal digit. -/
def isDecimalDigit (c : Char) : Bool := 48 ≤ c.toNat && c.toNat ≤ 57

/-- The number denoted by a run of decimal digits. -/
def digitsValue (z : Str) : Nat :=
  z.foldl (fun a c => 10 * a + (c.toNat - 48)) 0

/-- The call `parseInt(s, 10)` on a string: leading white space is skipped, one sign is
read, then the longest run of decimal digits; `none` is NaN (no digit was read). -/
def parseInt (s : Str) : Option Int :=
  let t := s.dropWhile isStrWhiteSpaceChar
  let negative := t.head? == some '-'
  let u := if t.head? == some '-' || t.head? == some '+' then t.tail else t
  let z := u.takeWhile isDecimalDigit
  if z.isEmpty then none
  else if negative then some (-(digitsValue z : Int)) else some (digitsValue z : Int)

mutual
/-- ToString of a query value: arrays join their elements with commas. -/
def QVal.toStr : QVal → Str
  | .str s => s
  | .arr xs => QVal.joinElems xs
  | .obj _ => "[object Object]".toList
/-- Array.prototype.join with a comma. -/
def QVal.joinElems : List QVal → Str
  | [] => []
  | [v] => v.toStr
  | v :: w :: vs => v.toStr ++ ',' :: QVal.joinElems (w :: vs)
end

/-- ToString of a possibly absent property. -/
def paramString : Option QVal → Str
  | none => "undefined".toList
  | some v => v.toStr

/-- The expression `parseInt(param, 10) || dflt`: NaN and zero are falsy. -/
def intParam (param : Option QVal) (dflt : Int) : Int :=
  match parseInt (paramString param) with
  | none => dflt
  | some n => if n = 0 then dflt else n

/-- A page reference `{page, limit}` of the pagination object. -/
structure PageRef where
  page : Int
  limit : Int
  deriving DecidableEq

/-- The pagination object of the response; an absent property is `none`. -/
structure Pagination where
  next : Option PageRef
  prev : Option PageRef
  deriving DecidableEq

/-- Lines 47-48 and 57-71 of the list handlers: the pagination result for a parsed
page, a parsed limit and the count of matching documents. -/
def paginate (page limit total : Int) : Pagination :=
  let startIndex := (page - 1) * limit
  let endIndex := page * limit
  { next := if endIndex < total then some { page := page + 1, limit := limit } else none
    prev := if startIndex > 0 then some { page := page - 1, limit := limit } else none }

/-! ## getCalls / getMessages -/

/-- The array `removeFields`. -/
def removeFields : List Str :=
  ["select".toList, "sort".toList, "page".toList, "limit".toList]

/-- Lines 10-19: `req.query.user = req.user.id`, the copy, and the deletion of the
reserved keys. -/
def reqQuery (userId : Str) (query : Query) : Query :=
  removeFields.foldl (fun q param => deleteKey param q)
    (setKey "user".toList (QVal.str userId) query)

/-- Lines 22-25: the serialised query after the operator rewriting. -/
def queryStr (userId : Str) (query : Query) : Str :=
  replaceOperators (stringify (QVal.obj (reqQuery userId query)))

/-- The filter `JSON.parse(queryStr)` handed to `find` and to `countDocuments`. -/
def queryFilter (userId : Str) (query : Query) : Option QVal :=
  jsonParse (queryStr userId query)

/-- JavaScript truthiness of a possibly absent query value. -/
def truthy : Option QVal → Bool
  | none => false
  | some (.str s) => !s.isEmpty
  | some _ => true

/-- The expression `s.split(',').join(' ')`. -/
def splitJoin (s : Str) : Str := s.map fun c => if c = ',' then ' ' else c

/-- The field list handed to `select` / `sort`: `none` when the parameter is falsy,
`some none` when `.split` is not a function of the value (a TypeError). -/
def fieldList (param : Option QVal) : Option (Option Str) :=
  if truthy param then
    match param with
    | some (.str s) => some (some (splitJoin s))
    | _ => some none
  else none

/-- What a list handler asks of the store and puts into its response. -/
structure ListPlan where
  findFilter : QVal
  countFilter : QVal
  select : Option Str
  sort : Str
  skip : Int
  limit : Int
  page : Int
  pagination : Pagination
  deriving DecidableEq

/-- The list handler; `defaultSort` is `-startTime` for calls and `-timestamp` for
messages, `total` is the answer of `countDocuments`.  `none`: the handler threw. -/
def listHandler (defaultSort : Str) (userId : Str) (query : Query) (total : Int) :
    Option ListPlan :=
  let query1 := setKey "user".toList (QVal.str userId) query
  match queryFilter userId query with
  | none => none
  | some filter =>
    match fieldList (lookup "select".toList query1), fieldList (lookup "sort".toList query1) with
    | some none, _ => none
    | _, some none => none
    | sel, srt =>
      let page := intParam (lookup "page".toList query1) 1
      let limit := intParam (lookup "limit".toList query1) 25
      some {
        findFilter := filter
        countFilter := filter
        select := sel.join
        sort := (srt.join).getD defaultSort
        skip := (page - 1) * limit
        limit := limit
        page := page
        pagination := paginate page limit total }

/-- The handler `getCalls`. -/
def getCalls (userId : Str) (query : Query) (total : Int) : Option ListPlan :=
  listHandler "-startTime".toList userId query total

/-- The handler `getMessages`. -/
def getMessages (userId : Str) (query : Query) (total : Int) : Option ListPlan :=
  listHandler "-timestamp".toList userId query total

/-! ## Request bodies, schemas and documents -/

/-- A JSON scalar of a request body. -/
inductive Scalar where
  | null
  | bool (b : Bool)
  | num (n : Int)
  | str (s : Str)
  deriving DecidableEq

/-- A JSON value of a request body (`express.json()`). -/
inductive Json where
  | lit (a : Scalar)
  | arr (xs : List Json)
  | obj (kvs : List (Str × Json))

mutual
/-- Decidable equality of body values. -/
def Json.decEq : (a b : Json) → Decidable (a = b)
  | .lit s, .lit t =>
    if h : s = t then isTrue (by rw [h]) else isFalse (fun e => h (by cases e; rfl))
  | .arr xs, .arr ys =>
    match Json.decEqElems xs ys with
    | isTrue h => isTrue (by rw [h])
    | isFalse h => isFalse (fun e => h (by cases e; rfl))
  | .obj xs, .obj ys =>
    match Json.decEqMembers xs ys with
    | isTrue h => isTrue (by rw [h])
    | isFalse h => isFalse (fun e => h (by cases e; rfl))
  | .lit _, .arr _ => isFalse (fun e => by cases e)
  | .lit _, .obj _ => isFalse (fun e => by cases e)
  | .arr _, .lit _ => isFalse (fun e => by cases e)
  | .arr _, .obj _ => isFalse (fun e => by cases e)
  | .obj _, .lit _ => isFalse (fun e => by cases e)
  | .obj _, .arr _ => isFalse (fun e => by cases e)
/-- Decidable equality of arrays of body values. -/
def Json.decEqElems : (a b : List Json) → Decidable (a = b)
  | [], [] => isTrue rfl
  | [], _ :: _ => isFalse (fun e => by cases e)
  | _ :: _, [] => isFalse (fun e => by cases e)
  | x :: xs, y :: ys =>
    match Json.decEq x y, Json.decEqElems xs ys with
    | isTrue h1, isTrue h2 => isTrue (by rw [h1, h2])
    | isFalse h1, _ => isFalse (fun e => h1 (by cases e; rfl))
    | _, isFalse h2 => isFalse (fun e => h2 (by cases e; rfl))
/-- Decidable equality of objects of body values. -/
def Json.decEqMembers : (a b : List (Str × Json)) → Decidable (a = b)
  | [], [] => isTrue rfl
  | [], _ :: _ => isFalse (fun e => by cases e)
  | _ :: _, [] => isFalse (fun e => by cases e)
  | (k, x) :: xs, (l, y) :: ys =>
    if hk : k = l then
      match Json.decEq x y, Json.decEqMembers xs ys with
      | isTrue h1, isTrue h2 => isTrue (by rw [hk, h1, h2])
      | isFalse h1, _ => isFalse (fun e => h1 (by cases e; rfl))
      | _, isFalse h2 => isFalse (fun e => h2 (by cases e; rfl))
    else isFalse (fun e => hk (by cases e; rfl))
end

instance : DecidableEq Json := Json.decEq

instance : Inhabited Json := ⟨Json.lit Scalar.null⟩

/-- A JSON object of a request body: one call or message as the client sends it. -/
abbrev Payload := List (Str × Json)

/-- A string as a body value. -/
def Json.ofStr (s : Str) : Json := Json.lit (Scalar.str s)

/-- The SchemaType of a path. -/
inductive PathKind where
  | objectId
  | string
  | number
  | date
  | stringArray
  deriving DecidableEq

/-- The `default` of a path: a constant, or `Date.now`. -/
inductive Default where
  | value (v : Json)
  | now

/-- One path of a Mongoose schema with the options the models use. -/
structure SchemaPath where
  name : Str
  kind : PathKind
  required : Bool
  enumValues : Option (List Str)
  dflt : Option Default

/-- A schema: its declared paths. -/
abbrev Schema := List SchemaPath

/-- The schema of `models/Call.js`. -/
def CallSchema : Schema :=
  [ { name := "user".toList, kind := .objectId, required := true, enumValues := none,
      dflt := none },
    { name := "phoneNumber".toList, kind := .string, required := true, enumValues := none,
      dflt := none },
    { name := "direction".toList, kind := .string, required := true,
      enumValues := some ["incoming".toList, "outgoing".toList], dflt := none },
    { name := "status".toList, kind := .string, required := true,
      enumValues := some ["answered".toList, "declined".toList, "missed".toList],
      dflt := none },
    { name := "duration".toList, kind := .number, required := false, enumValues := none,
      dflt := some (.value (.lit (.num 0))) },
    { name := "startTime".toList, kind := .date, required := true, enumValues := none,
      dflt := some .now },
    { name := "endTime".toList, kind := .date, required := false, enumValues := none,
      dflt := none },
    { name := "notes".toList, kind := .string, required := false, enumValues := none,
      dflt := none },
    { name := "createdAt".toList, kind := .date, required := false, enumValues := none,
      dflt := some .now } ]

/-- The schema of `models/Message.js`. -/
def MessageSchema : Schema :=
  [ { name := "user".toList, kind := .objectId, required := true, enumValues := none,
      dflt := none },
    { name := "direction".toList, kind := .string, required := true,
      enumValues := some ["incoming".toList, "outgoing".toList], dflt := none },
    { name := "phoneNumber".toList, kind := .string, required := true, enumValues := none,
      dflt := none },
    { name := "content".toList, kind := .string, required := true, enumValues := none,
      dflt := none },
    { name := "status".toList, kind := .string, required := false,
      enumValues := some ["sent".toList, "delivered".toList, "read".toList, "failed".toList],
      dflt := some (.value (Json.ofStr "sent".toList)) },
    { name := "timestamp".toList, kind := .date, required := false, enumValues := none,
      dflt := some .now },
    { name := "attachments".toList, kind := .stringArray, required := false,
      enumValues := none, dflt := some (.value (.arr [])) },
    { name := "createdAt".toList, kind := .date, required := false, enumValues := none,
      dflt := some .now } ]

/-- A stored document: the store-assigned `_id` and the values of the schema paths.
Values are kept as submitted (SchemaType casting and `trim` are not modelled). -/
structure Doc where
  _id : Nat
  fields : List (Str × Json)
  deriving DecidableEq

/-- A collection: its documents in natural order and the next fresh `_id`. -/
structure Store where
  docs : List Doc
  nextId : Nat
  deriving DecidableEq

/-- The `required` validator's notion of an empty value. -/
def isMissing (kind : PathKind) : Option Json → Bool
  | none => true
  | some (.lit .null) => true
  | some (.lit (.str s)) => kind == .string && s.isEmpty
  | some _ => false

/-- The `enum` validator: skipped on an absent or null value, otherwise the value has to
be one of the listed strings. -/
def enumOk (allowed : List Str) : Option Json → Bool
  | none => true
  | some (.lit .null) => true
  | some (.lit (.str s)) => allowed.contains s
  | some _ => false

/-- The validators of one path on a value. -/
def pathValid (p : SchemaPath) (v : Option Json) : Bool :=
  (!p.required || !isMissing p.kind v) &&
  match p.enumValues with
  | some allowed => enumOk allowed v
  | none => true

/-- The value a default produces. -/
def Default.eval (now : Int) : Default → Json
  | .value v => v
  | .now => .lit (.num now)

/-- The fields of `new Model(obj)`: for every schema path the submitted value, else the
default; keys that are not schema paths (`id` among them) are dropped (strict mode). -/
def newDocFields (S : Schema) (now : Int) (obj : Payload) : List (Str × Json) :=
  S.filterMap fun p =>
    match lookup p.name obj with
    | some v => some (p.name, v)
    | none => p.dflt.map fun d => (p.name, d.eval now)

/-- Document validation on save. -/
def validateDoc (S : Schema) (fields : List (Str × Json)) : Bool :=
  S.all fun p => pathValid p (lookup p.name fields)

/-- The effect of `$set`ting the schema paths present in `update` (strict mode drops the
other keys). -/
def updateFields (S : Schema) (update : Payload) (old : List (Str × Json)) :
    List (Str × Json) :=
  S.foldl (fun f p =>
    match lookup p.name update with
    | some v => setKey p.name v f
    | none => f) old

/-- Update validators (`runValidators: true`): the validators of the paths being set. -/
def validateUpdate (S : Schema) (update : Payload) : Bool :=
  S.all fun p =>
    match lookup p.name update with
    | some v => pathValid p (some v)
    | none => true

/-! ## The store interface as the handlers use it -/

/-- A call to the model. -/
inductive StoreOp where
  | findOne (key : Str) (value : Option Json)
  | findByIdAndUpdate (_id : Nat) (update : Payload)
  | create (obj : Payload)
  | findById (id : Option Nat)
  | deleteOne (_id : Nat)
  deriving DecidableEq

/-- What a request cannot control: whether filters are cast strictly (`strictQuery`), which
model calls are answered by a store fault (indexed by the number of calls made so far),
and the clock. -/
structure Env where
  strictQuery : Bool
  fault : Nat → Bool
  now : Int

/-- The collection together with the record of the model calls made on it. -/
structure World where
  store : Store
  log : List StoreOp
  deriving DecidableEq

/-- Record a model call. -/
def World.record (w : World) (op : StoreOp) : World :=
  { w with log := w.log ++ [op] }

/-- Whether a document satisfies the filter `{ [key]: value }`: an undefined or null value
selects the documents without the field. -/
def fieldMatches (key : Str) (value : Option Json) (d : Doc) : Bool :=
  match value, lookup key d.fields with
  | none, none => true
  | none, some x => x == .lit .null
  | some v, none => v == .lit .null
  | some v, some x => x == v

/-- The paths of a schema. -/
def Schema.paths (S : Schema) : List Str := S.map SchemaPath.name

/-- The call `Model.findOne({ [key]: value })`.  With `strictQuery` a key that is not a
schema path is removed from the filter, which then selects the first document.
The outer `none` is a rejected promise. -/
def findOne (env : Env) (S : Schema) (w : World) (key : Str) (value : Option Json) :
    World × Option (Option Doc) :=
  let w1 := w.record (.findOne key value)
  if env.fault w.log.length then (w1, none)
  else if env.strictQuery && !S.paths.contains key then (w1, some w.store.docs.head?)
  else (w1, some (w.store.docs.find? (fieldMatches key value)))

/-- Replace the fields of the first document with the given `_id`. -/
def updateFirst (id : Nat) (f : List (Str × Json) → List (Str × Json)) : List Doc → List Doc
  | [] => []
  | d :: ds => if d._id = id then { d with fields := f d.fields } :: ds
               else d :: updateFirst id f ds

/-- The call `Model.findByIdAndUpdate(id, update, { new: true, runValidators: true })`:
the updated document, `some none` when no document has the id. -/
def findByIdAndUpdate (env : Env) (S : Schema) (w : World) (id : Nat) (update : Payload) :
    World × Option (Option Doc) :=
  let w1 := w.record (.findByIdAndUpdate id update)
  if env.fault w.log.length then (w1, none)
  else if !validateUpdate S update then (w1, none)
  else
    let docs := updateFirst id (updateFields S update) w.store.docs
    ({ w1 with store := { w.store with docs := docs } }, some (docs.find? fun d => d._id = id))

/-- The call `Model.create(obj)`: the created document. -/
def create (env : Env) (S : Schema) (w : World) (obj : Payload) : World × Option Doc :=
  let w1 := w.record (.create obj)
  if env.fault w.log.length then (w1, none)
  else
    let fields := newDocFields S env.now obj
    if !validateDoc S fields then (w1, none)
    else
      let d : Doc := { _id := w.store.nextId, fields := fields }
      ({ w1 with store := { docs := w.store.docs ++ [d], nextId := w.store.nextId + 1 } },
        some d)

/-! ## createCall / createMessage and syncCalls / syncMessages -/

/-- A response: `res.status(status).json({ success: true, data })`,
`res.status(status).json({ success: false, error })`, a thrown error handed to `next`, or
`next(new ErrorResponse(message, statusCode))` (the message is not modelled). -/
inductive Reply (α : Type) where
  | success (status : Nat) (data : α)
  | failure (status : Nat) (error : Str)
  | next
  | errorResponse (statusCode : Nat)
  deriving DecidableEq

/-- The object `results`. -/
structure SyncResults where
  added : Nat
  updated : Nat
  total : Nat
  deriving DecidableEq

/-- The outcome of one iteration of the sync loop. -/
inductive StepOutcome where
  | updated
  | added
  | threw
  deriving DecidableEq

/-- One iteration of the loop of `syncCalls` / `syncMessages` (lines 205-222). -/
def syncStep (env : Env) (S : Schema) (userId : Str) (w : World) (call : Payload) :
    World × StepOutcome :=
  match findOne env S w "id".toList (lookup "id".toList call) with
  | (w1, none) => (w1, .threw)
  | (w1, some (some existing)) =>
    match findByIdAndUpdate env S w1 existing._id call with
    | (w2, none) => (w2, .threw)
    | (w2, some _) => (w2, .updated)
  | (w1, some none) =>
    match create env S w1 (setKey "user".toList (Json.ofStr userId) call) with
    | (w2, none) => (w2, .threw)
    | (w2, some _) => (w2, .added)

/-- The loop of `syncCalls` / `syncMessages`: `none` when an iteration threw. -/
def syncLoop (env : Env) (S : Schema) (userId : Str) :
    List Payload → World → Nat → Nat → World × Option (Nat × Nat)
  | [], w, added, updated => (w, some (added, updated))
  | call :: rest, w, added, updated =>
    match syncStep env S userId w call with
    | (w1, .threw) => (w1, none)
    | (w1, .updated) => syncLoop env S userId rest w1 added (updated + 1)
    | (w1, .added) => syncLoop env S userId rest w1 (added + 1) updated

/-- The handler `syncCalls` / `syncMessages` for a schema, with its `try`/`catch`. -/
def syncRecords (env : Env) (S : Schema) (userId : Str) (batch : List Payload) (w : World) :
    World × Reply SyncResults :=
  match syncLoop env S userId batch w 0 0 with
  | (w1, some (added, updated)) =>
    (w1, .success 200 { added := added, updated := updated, total := batch.length })
  | (w1, none) => (w1, .failure 500 "Server Error".toList)

/-- The handler `syncCalls`. -/
def syncCalls (env : Env) (userId : Str) (batch : List Payload) (w : World) :
    World × Reply SyncResults :=
  syncRecords env CallSchema userId batch w

/-- The handler `syncMessages`. -/
def syncMessages (env : Env) (userId : Str) (batch : List Payload) (w : World) :
    World × Reply SyncResults :=
  syncRecords env MessageSchema userId batch w

/-! ## getCall, updateCall, deleteCall and the message equivalents -/

/-- The caller `req.user`. -/
structure Caller where
  id : Str
  role : Str
  deriving DecidableEq

/-- The call `Model.findById(req.params.id)`.  The argument is the ObjectId the parameter
casts to, `none` when it is not an ObjectId: the query then throws a CastError. -/
def findById (env : Env) (w : World) (id : Option Nat) : World × Option (Option Doc) :=
  let w1 := w.record (.findById id)
  if env.fault w.log.length then (w1, none)
  else
    match id with
    | none => (w1, none)
    | some n => (w1, some (w.store.docs.find? fun d => d._id = n))

/-- The documents without the first one that has the given `_id`. -/
def removeFirst (id : Nat) : List Doc → List Doc
  | [] => []
  | d :: ds => if d._id = id then ds else d :: removeFirst id ds

/-- The call `doc.deleteOne()` on a document with the given `_id`. -/
def deleteOne (env : Env) (w : World) (id : Nat) : World × Option Unit :=
  let w1 := w.record (.deleteOne id)
  if env.fault w.log.length then (w1, none)
  else ({ w1 with store := { w.store with docs := removeFirst id w.store.docs } }, some ())

/-- The expression `call.user.toString()`: the owner of a document; `none` when the
document has no owner to convert (the expression then throws). -/
def Doc.owner (d : Doc) : Option Str :=
  match lookup "user".toList d.fields with
  | some (.lit (.str s)) => some s
  | _ => none

/-- The outcome of the lookup and of the ownership check that open `getCall`,
`updateCall` and `deleteCall`. -/
inductive Verdict where
  | threw
  | notFound
  | notAuthorized
  | granted (record : Doc)
  deriving DecidableEq

/-- The first statements of `getCall`, `updateCall`, `deleteCall` (lines 85-101, 128-144,
161-177): the lookup by id, the 404 check, then the ownership check. -/
def checkRecord (env : Env) (caller : Caller) (id : Option Nat) (w : World) :
    World × Verdict :=
  match findById env w id with
  | (w1, none) => (w1, .threw)
  | (w1, some none) => (w1, .notFound)
  | (w1, some (some record)) =>
    match record.owner with
    | none => (w1, .threw)
    | some owner =>
      if owner ≠ caller.id ∧ caller.role ≠ "admin".toList then (w1, .notAuthorized)
      else (w1, .granted record)

/-- The reply of a handler whose check did not grant access. -/
def rejection {α : Type} : Verdict → Reply α
  | .notFound => .errorResponse 404
  | .notAuthorized => .errorResponse 401
  | _ => .next

/-- The handler `updateCall` / `updateMessage` for a schema: after the check, the call
`findByIdAndUpdate(req.params.id, req.body, { new: true, runValidators: true })`. -/
def updateRecord (env : Env) (S : Schema) (caller : Caller) (id : Option Nat)
    (body : Payload) (w : World) : World × Reply (Option Doc) :=
  match checkRecord env caller id w with
  | (w1, .granted record) =>
    match findByIdAndUpdate env S w1 (id.getD record._id) body with
    | (w2, none) => (w2, .next)
    | (w2, some updated) => (w2, .success 200 updated)
  | (w1, v) => (w1, rejection v)

/-- The handler `updateCall`. -/
def updateCall (env : Env) (caller : Caller) (id : Option Nat) (body : Payload) (w : World) :
    World × Reply (Option Doc) :=
  updateRecord env CallSchema caller id body w

/-- The user document the middleware attaches to a socket. -/
structure User where
  _id : Str
  name : Str
  deriving DecidableEq

/-- The collaborators of the authentication middleware: `jwt.verify(token, secret)`, which
throws (`none`) or returns the payload, of which `decoded.id` is read (possibly
undefined), and `User.findById`, which rejects (`none`), finds nothing (`some none`) or
finds a user. -/
structure AuthEnv where
  verify : Str → Option (Option Str)
  findUser : Option Str → Option (Option User)

/-- The outcome of the middleware: `next(new Error(message))` or `next()` with the user
attached to the socket. -/
inductive Handshake where
  | rejected (message : Str)
  | accepted (user : User)
  deriving DecidableEq

/-- The middleware `io.use(async (socket, next) => ...)` (lines 15-39) on the token of
`socket.handshake.auth`; an absent or empty token is falsy. -/
def authenticate (auth : AuthEnv) (token : Option Str) : Handshake :=
  match token with
  | none => .rejected "Authentication error: Token not provided".toList
  | some t =>
    if t.isEmpty then .rejected "Authentication error: Token not provided".toList
    else
      match auth.verify t with
      | none => .rejected "Authentication error: Invalid token".toList
      | some decodedId =>
        match auth.findUser decodedId with
        | none => .rejected "Authentication error: Invalid token".toList
        | some none => .rejected "User not found".toList
        | some (some user) => .accepted user

/-- A connected socket: its id, the user attached to it and the rooms the connection
handler made it join. -/
structure Socket where
  id : Nat
  user : User
  rooms : List Str
  deriving DecidableEq

/-- The server `io`: the connected sockets. -/
structure Hub where
  sockets : List Socket
  deriving DecidableEq

/-- The room name of a user, the template `user:` followed by `socket.user._id`. -/
def userRoom (u : User) : Str := "user:".toList ++ u._id

/-- A connection attempt: the middleware, then the connection handler, which joins the
socket to the room of its user (line 46).  A rejected attempt returns the error and
leaves the hub as it is. -/
def connect (auth : AuthEnv) (hub : Hub) (sid : Nat) (token : Option Str) :
    Hub × Option Str :=
  match authenticate auth token with
  | .rejected message => (hub, some message)
  | .accepted user =>
    ({ sockets := hub.sockets ++ [{ id := sid, user := user, rooms := [userRoom user] }] },
      none)

/-- The disconnection of a socket: it leaves the hub and with it its rooms. -/
def disconnect (hub : Hub) (sid : Nat) : Hub :=
  { sockets := hub.sockets.filter fun s => s.id ≠ sid }

/-- The events a client sends. -/
inductive ClientEvent where
  | new_call
  | update_call
  | new_message
  | update_message
  deriving DecidableEq

/-- The events the server relays. -/
inductive ServerEvent where
  | call_update
  | message_update
  deriving DecidableEq

/-- One event as a socket receives it. -/
structure Delivery (π : Type) where
  socket : Nat
  event : ServerEvent
  payload : π

/-- The call `io.to(room).emit(event, payload)`: the event goes to every socket that is in
the room. -/
def emitTo {π : Type} (hub : Hub) (room : Str) (event : ServerEvent) (payload : π) :
    List (Delivery π) :=
  (hub.sockets.filter fun s => decide (room ∈ s.rooms)).map fun s =>
    { socket := s.id, event := event, payload := payload }

/-- The four event handlers of the connection handler (lines 49-70). -/
def onEvent {π : Type} (hub : Hub) (sender : Socket) (event : ClientEvent) (payload : π) :
    List (Delivery π) :=
  match event with
  | .new_call => emitTo hub (userRoom sender.user) .call_update payload
  | .update_call => emitTo hub (userRoom sender.user) .call_update payload
  | .new_message => emitTo hub (userRoom sender.user) .message_update payload
  | .update_message => emitTo hub (userRoom sender.user) .message_update payload

/-- The states of the hub that connection attempts (with fresh socket ids) and
disconnections lead to. -/
inductive Reachable (auth : AuthEnv) : Hub → Prop where
  | start : Reachable auth { sockets := [] }
  | connect {hub : Hub} (sid : Nat) (token : Option Str) :
      Reachable auth hub → (∀ s ∈ hub.sockets, s.id ≠ sid) →
      Reachable auth (connect auth hub sid token).1
  | disconnect {hub : Hub} (sid : Nat) :
      Reachable auth hub → Reachable auth (disconnect hub sid)

/-! ## Notions used to state the properties of the list handlers -/

/-- The `id` of a user document, the string the handlers compare with
`call.user.toString()` (`user` is an ObjectId path of both schemas): twenty-four lower-case
hexadecimal digits. -/
def isObjectId (s : Str) : Bool :=
  s.length == 24 && s.all fun c => (48 ≤ c.toNat && c.toNat ≤ 57) || (97 ≤ c.toNat && c.toNat ≤ 102)

mutual
/-- Well-formed query value: no object has two properties of the same name. -/
def wf : QVal → Bool
  | .str _ => true
  | .arr xs => wfElems xs
  | .obj kvs => decide (keys kvs).Nodup && wfMembers kvs
/-- Well-formed array elements. -/
def wfElems : List QVal → Bool
  | [] => true
  | v :: vs => wf v && wfElems vs
/-- Well-formed member values. -/
def wfMembers : List (Str × QVal) → Bool
  | [] => true
  | (_, v) :: ps => wf v && wfMembers ps
end

/-- Whether the regular expression matches somewhere in a text that follows `before`. -/
def occursFrom (before : Option Char) : Str → Bool
  | [] => false
  | c :: cs => (matchOperator before (c :: cs)).isSome || occursFrom (some c) cs

/-- The string contains one of the words gt, gte, lt, lte, in as a whole word. -/
def hasOperatorWord (s : Str) : Bool := occursFrom none s

/-- An operator word at the head of a text, followed by a non-word character or the end. -/
def wordAt : Str → Str → Bool
  | [], t => !isWordAt t.head?
  | _ :: _, [] => false
  | x :: w, y :: t => x == y && wordAt w t

/-- Some operator word stands at the head of the text. -/
def opStart (t : Str) : Bool := operatorWords.any fun w => wordAt w t

/-- The regular expression matches at the position. -/
def marks (before : Option Char) (t : Str) : Bool := !isWordAt before && opStart t

/-- The text with `$` written in front of every match. -/
def mark (before : Option Char) : Str → Str
  | [] => []
  | c :: cs =>
    if marks before (c :: cs) then '$' :: c :: mark (some c) cs
    else c :: mark (some c) cs

/-- The string whose literal is the rewritten literal of `s`: `$` is inserted where the
regular expression matches in the escaped text (`before` is the last character written
in front of the literal's current position). -/
def markRaw (before : Option Char) : Str → Str
  | [] => []
  | c :: cs =>
    if marks before (escape (c :: cs)) then '$' :: c :: markRaw (escapeChar c).getLast? cs
    else c :: markRaw (escapeChar c).getLast? cs

/-- The effect of the rewriting on one key or string value. -/
def markStr (s : Str) : Str := markRaw (some '"') s

mutual
/-- The query value with every key and every string value rewritten. -/
def markVal : QVal → QVal
  | .str s => .str (markStr s)
  | .arr xs => .arr (markElems xs)
  | .obj kvs => .obj (markMembers kvs)
/-- Rewritten array elements. -/
def markElems : List QVal → List QVal
  | [] => []
  | v :: vs => markVal v :: markElems vs
/-- Rewritten object members. -/
def markMembers : List (Str × QVal) → List (Str × QVal)
  | [] => []
  | (k, v) :: ps => (markStr k, markVal v) :: markMembers ps
end

mutual
/-- The result of parsing the serialisation of a value: repeated keys are merged. -/
def normalize : QVal → QVal
  | .str s => .str s
  | .arr xs => .arr (normalizeElems xs)
  | .obj kvs => .obj (buildObject (normalizeMembers kvs))
/-- Normalised array elements. -/
def normalizeElems : List QVal → List QVal
  | [] => []
  | v :: vs => normalize v :: normalizeElems vs
/-- Normalised members, before merging. -/
def normalizeMembers : List (Str × QVal) → List (Str × QVal)
  | [] => []
  | (k, v) :: ps => (k, normalize v) :: normalizeMembers ps
end

mutual
/-- A bound on the recursion depth `parseValue` needs for the serialisation of a value. -/
def size : QVal → Nat
  | .str _ => 1
  | .arr xs => 1 + sizeElems xs
  | .obj kvs => 1 + sizeMembers kvs
/-- The bound for array elements. -/
def sizeElems : List QVal → Nat
  | [] => 0
  | v :: vs => 1 + size v + sizeElems vs
/-- The bound for object members. -/
def sizeMembers : List (Str × QVal) → Nat
  | [] => 0
  | (_, v) :: ps => 1 + size v + sizeMembers ps
end

/-- The operator key as the store spells it. -/
def renameOperator (k : Str) : Str := if k ∈ operatorWords then '$' :: k else k

mutual
/-- The value with the operator keys of its objects renamed. -/
def renameOps : QVal → QVal
  | .str s => .str s
  | .arr xs => .arr (renameOpsElems xs)
  | .obj kvs => .obj (renameOpsMembers kvs)
/-- Renaming inside array elements. -/
def renameOpsElems : List QVal → List QVal
  | [] => []
  | v :: vs => renameOps v :: renameOpsElems vs
/-- Renaming of the members of a nested object. -/
def renameOpsMembers : List (Str × QVal) → List (Str × QVal)
  | [] => []
  | (k, v) :: ps => (renameOperator k, renameOps v) :: renameOpsMembers ps
end

/-- The keys the specification reserves. -/
def reservedKeys : List Str :=
  ["select".toList, "sort".toList, "page".toList, "limit".toList]

/-- The filter as the specification describes it: the reserved top-level keys removed, every
other key kept, the operator keys of nested objects renamed, and `user` set to the caller. -/
def specFilter (userId : Str) (query : Query) : QVal :=
  .obj (setKey "user".toList (.str userId)
    ((query.filter fun p => !reservedKeys.contains p.1).map fun p => (p.1, renameOps p.2)))

mutual
/-- Inside a candidate value the operator words occur only as keys of nested objects. -/
def cleanVal : QVal → Bool
  | .str s => !hasOperatorWord s
  | .arr xs => cleanElems xs
  | .obj kvs => cleanMembers kvs
/-- Clean array elements. -/
def cleanElems : List QVal → Bool
  | [] => true
  | v :: vs => cleanVal v && cleanElems vs
/-- Clean members of a nested object: a key is an operator word or contains none. -/
def cleanMembers : List (Str × QVal) → Bool
  | [] => true
  | (k, v) :: ps => (decide (k ∈ operatorWords) || !hasOperatorWord k) && cleanVal v &&
      cleanMembers ps
end

/-- A query whose field names contain no operator word and whose values are clean. -/
def cleanQuery (query : Query) : Bool :=
  query.all fun p => !hasOperatorWord p.1 && cleanVal p.2

mutual
/-- The second value has the shape of the first, and every key and string of the first
that contains no operator word is found unchanged in the second. -/
def agree : QVal → QVal → Bool
  | .str s, .str t => hasOperatorWord s || decide (s = t)
  | .arr xs, .arr ys => agreeElems xs ys
  | .obj kvs, .obj lws => agreeMembers kvs lws
  | _, _ => false
/-- Agreement of arrays, element by element. -/
def agreeElems : List QVal → List QVal → Bool
  | [], [] => true
  | v :: vs, w :: ws => agree v w && agreeElems vs ws
  | _, _ => false
/-- Agreement of objects, member by member. -/
def agreeMembers : List (Str × QVal) → List (Str × QVal) → Bool
  | [], [] => true
  | (k, v) :: ps, (l, w) :: qs =>
    (hasOperatorWord k || decide (k = l)) && agree v w && agreeMembers ps qs
  | _, _ => false
end

/-! ## Example inputs -/

/-- A user id. -/
def exUser : Str := "5f8d0d55b54764421b7156c3".toList

/-- The query string `?page=..&limit=..`. -/
def pageQuery (page limit : String) : Query :=
  [("page".toList, .str page.toList), ("limit".toList, .str limit.toList)]

/-- The query string `?duration[gte]=5`. -/
def durationQuery : Query :=
  [("duration".toList, .obj [("gte".toList, .str "5".toList)])]

/-- The filter `{ duration: { $gte: "5" }, user: exUser }`. -/
def durationFilter : QVal :=
  .obj [("duration".toList, .obj [("$gte".toList, .str "5".toList)]),
        ("user".toList, .str exUser)]

/-- The query string `?user[$ne]=x&notes=check in&in=x`: an owner filter of the caller's own,
a string value and a field name that contain an operator word. -/
def hostileQuery : Query :=
  [("user".toList, .obj [("$ne".toList, .str "x".toList)]),
   ("notes".toList, .str "check in".toList),
   ("in".toList, .str "x".toList)]

/-- Modelled from the spec: the store's comparison operators on a numeric field (the
"field ≥ 5" semantics of `$gte`, and likewise `$gt`, `$lt`, `$lte`); the operand is the
decimal number the string denotes. -/
def compareOp (op : Str) (value operand : Int) : Bool :=
  if op = "$gte".toList then decide (operand ≤ value)
  else if op = "$gt".toList then decide (operand < value)
  else if op = "$lte".toList then decide (value ≤ operand)
  else if op = "$lt".toList then decide (value < operand)
  else false

/-- Modelled from the spec: whether a numeric field satisfies the condition a filter puts
on it, an operand string for equality or an object of comparison operators. -/
def conditionHolds (cond : QVal) (value : Int) : Bool :=
  match cond with
  | .str s => parseInt s == some value
  | .obj ops => ops.all fun p =>
      match p.2 with
      | .str s =>
        match parseInt s with
        | some n => compareOp p.1 value n
        | none => false
      | _ => false
  | .arr _ => false

/-- Modelled from the spec: whether the store selects a record with the given owner and
duration under a filter on `user` and `duration`. -/
def selects (filter : QVal) (owner : Str) (duration : Int) : Bool :=
  match filter with
  | .obj members => members.all fun p =>
      if p.1 = "user".toList then decide (p.2 = QVal.str owner)
      else if p.1 = "duration".toList then conditionHolds p.2 duration
      else false
  | _ => false

/-- The payload of `create` in the not-found branch: `{ ...call, user: req.user.id }`. -/
def ownedPayload (userId : Str) (call : Payload) : Payload :=
  setKey "user".toList (Json.ofStr userId) call

/-- A record that passes validation both when it is created for the caller and when it
is used as an update. -/
def validRecord (S : Schema) (userId : Str) (now : Int) (record : Payload) : Bool :=
  validateDoc S (newDocFields S now (ownedPayload userId record)) && validateUpdate S record

/-- An environment without store faults, with the given filter strictness. -/
def exEnv (strictQuery : Bool) : Env :=
  { strictQuery := strictQuery, fault := fun _ => false, now := 1700000000000 }

/-- An empty collection on which no call has been made. -/
def emptyWorld : World := { store := { docs := [], nextId := 0 }, log := [] }

/-- A call as a device sends it. -/
def exCall (id phoneNumber status : String) : Payload :=
  [("id".toList, Json.ofStr id.toList),
   ("phoneNumber".toList, Json.ofStr phoneNumber.toList),
   ("direction".toList, Json.ofStr "incoming".toList),
   ("status".toList, Json.ofStr status.toList)]

/-- A message as a device sends it. -/
def exMessage (id phoneNumber content : String) : Payload :=
  [("id".toList, Json.ofStr id.toList),
   ("phoneNumber".toList, Json.ofStr phoneNumber.toList),
   ("direction".toList, Json.ofStr "outgoing".toList),
   ("content".toList, Json.ofStr content.toList)]

/-- Another user's id. -/
def otherUser : Str := "60a1b2c3d4e5f60718293a4b".toList

/-- A collection that holds one call of another user. -/
def otherWorld : World :=
  { store :=
      { docs := [{ _id := 0,
                   fields := newDocFields CallSchema 1600000000000
                     (ownedPayload otherUser (exCall "z9" "5550000" "answered")) }],
        nextId := 1 },
    log := [] }

/-- A collection that holds one message of another user. -/
def otherMessageWorld : World :=
  { store :=
      { docs := [{ _id := 0,
                   fields := newDocFields MessageSchema 1600000000000
                     (ownedPayload otherUser (exMessage "z9" "5550000" "hello")) }],
        nextId := 1 },
    log := [] }

/-! ## Notions used to state the properties of the handlers by id and of the hub -/

/-- A string without its `$` characters. -/
def withoutDollar (s : Str) : Str := s.filter fun c => c != '$'

mutual
/-- The second value has the shape of the first: strings stand where strings stand, arrays
have the same length, objects have the same number of keys, and keys and strings differ
by `$` characters only. -/
def sameShape : QVal → QVal → Bool
  | .str s, .str t => decide (withoutDollar s = withoutDollar t)
  | .arr xs, .arr ys => sameShapeElems xs ys
  | .obj kvs, .obj lws => sameShapeMembers kvs lws
  | _, _ => false
/-- Arrays of the same length with elements of the same shape. -/
def sameShapeElems : List QVal → List QVal → Bool
  | [], [] => true
  | v :: vs, w :: ws => sameShape v w && sameShapeElems vs ws
  | _, _ => false
/-- Objects with the same number of members, of the same shape in order. -/
def sameShapeMembers : List (Str × QVal) → List (Str × QVal) → Bool
  | [], [] => true
  | (k, v) :: ps, (l, w) :: qs =>
    decide (withoutDollar k = withoutDollar l) && sameShape v w && sameShapeMembers ps qs
  | _, _ => false
end

/-- The event a client event is relayed as: `call_update` for the two call events,
`message_update` for the two message events. -/
def relayedEvent : ClientEvent → ServerEvent
  | .new_call => .call_update
  | .update_call => .call_update
  | .new_message => .message_update
  | .update_message => .message_update

/-- The connections of the hub whose user has the given id. -/
def joinedUnder (hub : Hub) (userId : Str) : List Socket :=
  hub.sockets.filter fun s => s.user._id = userId

/-- The user is the one a supplied, verified token names: some non-empty token verifies
to an id under which the user is found. -/
def Authenticated (auth : AuthEnv) (user : User) : Prop :=
  ∃ t decodedId, t ≠ [] ∧ auth.verify t = some decodedId ∧
    auth.findUser decodedId = some (some user)

/-- The caller who owns the example records. -/
def exCaller : Caller := { id := exUser, role := "user".toList }

/-- An administrator. -/
def exAdmin : Caller := { id := "507f1f77bcf86cd799439011".toList, role := "admin".toList }

/-- A collection that holds one call of `exUser` (id 0) and one of `otherUser` (id 1). -/
def twoUserWorld : World :=
  { store :=
      { docs := [Doc.mk 0 (newDocFields CallSchema 1600000000000
                    (ownedPayload exUser (exCall "a1" "5551111" "missed"))),
                 Doc.mk 1 (newDocFields CallSchema 1600000000000
                    (ownedPayload otherUser (exCall "z9" "5550000" "answered")))],
        nextId := 2 },
    log := [] }

/-- An update body that passes the route validation. -/
def exBody (status : String) : Payload :=
  [("phoneNumber".toList, Json.ofStr "5551111".toList),
   ("direction".toList, Json.ofStr "incoming".toList),
   ("status".toList, Json.ofStr status.toList)]

/-- A sync candidate without an external id. -/
def exCandidate : Payload := exBody "declined"

/-- Two users known to the authentication collaborators. -/
def exAlice : User := { _id := exUser, name := "Alice".toList }

/-- The second user. -/
def exBob : User := { _id := otherUser, name := "Bob".toList }

/-- Collaborators that accept the tokens `alice` and `bob`, verify `ghost` to an id that
names no user, and reject every other token. -/
def exAuth : AuthEnv :=
  { verify := fun t =>
      if t = "alice".toList then some (some exUser)
      else if t = "bob".toList then some (some otherUser)
      else if t = "ghost".toList then some (some "000000000000000000000000".toList)
      else none
    findUser := fun id =>
      if id = some exUser then some (some exAlice)
      else if id = some otherUser then some (some exBob)
      else some none }

/-- A hub with two devices of Alice (sockets 1 and 3) and one of Bob (socket 2). -/
def exHub : Hub :=
  (connect exAuth (connect exAuth (connect exAuth { sockets := [] } 1
    (some "alice".toList)).1 2 (some "bob".toList)).1 3 (some "alice".toList)).1

/-! ## The regular expression: basic facts -/

theorem operatorWords_word {w : Str} (hw : w ∈ operatorWords) :
    w ≠ [] ∧ ∀ x ∈ w, isWordChar x = true := by
  simp only [operatorWords, List.mem_cons, List.mem_singleton, List.not_mem_nil, or_false] at hw
  rcases hw with h | h | h | h | h <;> subst h <;> decide

theorem operatorWords_head {w : Str} (hw : w ∈ operatorWords) :
    ∃ x t, w = x :: t ∧ (x = 'g' ∨ x = 'l' ∨ x = 'i') := by
  simp only [operatorWords, List.mem_cons, List.mem_singleton, List.not_mem_nil, or_false] at hw
  rcases hw with h | h | h | h | h <;> subst h <;> exact ⟨_, _, rfl, by decide⟩

/-- The alternative followed by `\b`, as a recursive test. -/
theorem prefix_boundary_eq_wordAt (w t : Str) (hne : w ≠ []) (hw : ∀ x ∈ w, isWordChar x = true) :
    (w.isPrefixOf t && wordBoundary w.getLast? (t.drop w.length).head?) = wordAt w t := by
  induction w generalizing t with
  | nil => exact absurd rfl hne
  | cons x w ih =>
    cases t with
    | nil => simp [List.isPrefixOf, wordAt]
    | cons y t =>
      have hx : isWordChar x = true := hw x (List.mem_cons_self _ _)
      cases w with
      | nil =>
        simp [List.isPrefixOf, wordAt, wordBoundary, isWordAt, hx]
      | cons x2 w2 =>
        have := ih t (by simp) (fun z hz => hw z (List.mem_cons_of_mem _ hz))
        simp only [List.isPrefixOf, List.length_cons, List.drop_succ_cons, wordAt,
          List.getLast?_cons_cons, Bool.and_assoc] at this ⊢
        rw [this]

theorem matchOperator_isSome (before : Option Char) (t : Str) :
    (matchOperator before t).isSome = marks before t := by
  have key : ∀ w ∈ operatorWords,
      (w.isPrefixOf t && wordBoundary w.getLast? (t.drop w.length).head?) = wordAt w t :=
    fun w hw => prefix_boundary_eq_wordAt w t (operatorWords_word hw).1 (operatorWords_word hw).2
  have hfind : (operatorWords.find? fun w =>
      w.isPrefixOf t && wordBoundary w.getLast? (t.drop w.length).head?).isSome = opStart t := by
    apply Bool.eq_iff_iff.mpr
    rw [List.find?_isSome, opStart, List.any_eq_true]
    constructor
    · rintro ⟨w, hw, h⟩; exact ⟨w, hw, by rw [← key w hw]; exact h⟩
    · rintro ⟨w, hw, h⟩; exact ⟨w, hw, by rw [key w hw]; exact h⟩
  unfold matchOperator marks
  by_cases hs : opStart t = true
  · -- the text starts with a word character
    have hhead : isWordAt t.head? = true := by
      simp only [opStart, List.any_eq_true] at hs
      obtain ⟨w, hw, h⟩ := hs
      obtain ⟨hne, hall⟩ := operatorWords_word hw
      cases w with
      | nil => exact absurd rfl hne
      | cons x w =>
        cases t with
        | nil => simp [wordAt] at h
        | cons y t =>
          simp only [wordAt, Bool.and_eq_true, beq_iff_eq] at h
          simp only [List.head?_cons, isWordAt]
          rw [← h.1]; exact hall x (List.mem_cons_self _ _)
    cases hb : isWordAt before
    · have hwb : wordBoundary before t.head? = true := by simp [wordBoundary, hb, hhead]
      rw [if_pos hwb, hfind, hs]; rfl
    · have hwb : ¬ wordBoundary before t.head? = true := by simp [wordBoundary, hb, hhead]
      rw [if_neg hwb, hs]; rfl
  · simp only [Bool.not_eq_true] at hs
    rw [hs, Bool.and_false]
    split
    · rw [hfind, hs]
    · rfl

theorem matchOperator_some {before : Option Char} {t w : Str}
    (h : matchOperator before t = some w) : w ∈ operatorWords ∧ w.isPrefixOf t = true := by
  unfold matchOperator at h
  split at h
  · have h1 := List.mem_of_find?_eq_some h
    have h2 := List.find?_some h
    simp only [Bool.and_eq_true] at h2
    exact ⟨h1, h2.1⟩
  · cases h

/-- Resuming the search behind a match gives the same text as testing every position:
no match starts inside a word. -/
theorem replaceFrom_eq_mark (t : Str) : ∀ (before : Option Char) (k : Nat),
    (t.take k).all isWordChar = true → k ≤ t.length → (0 < k → isWordAt before = true) →
    replaceFrom before k t = mark before t := by
  induction t with
  | nil => intro before k _ _ _; cases k <;> rfl
  | cons c cs ih =>
    intro before k hall hk hb
    cases k with
    | succ k =>
      simp only [List.take_succ_cons, List.all_cons, Bool.and_eq_true] at hall
      have hm : marks before (c :: cs) = false := by
        simp [marks, hb (Nat.succ_pos k)]
      simp only [replaceFrom, mark, hm, Bool.false_eq_true, if_false]
      rw [ih (some c) k hall.2 (by simpa using hk) (fun _ => hall.1)]
    | zero =>
      simp only [replaceFrom, mark]
      rw [← matchOperator_isSome]
      cases hm : matchOperator before (c :: cs) with
      | none =>
        simp only [Option.isSome_none, Bool.false_eq_true, if_false]
        rw [ih (some c) 0 (by simp) (by simp) (by simp)]
      | some w =>
        simp only [Option.isSome_some, if_true]
        obtain ⟨hw, hp⟩ := matchOperator_some hm
        obtain ⟨hne, hword⟩ := operatorWords_word hw
        cases w with
        | nil => exact absurd rfl hne
        | cons x w =>
          simp only [List.isPrefixOf, Bool.and_eq_true, beq_iff_eq] at hp
          have hpre : w <+: cs := List.isPrefixOf_iff_prefix.mp hp.2
          have htake : cs.take w.length = w := (List.prefix_iff_eq_take.mp hpre).symm
          have hx : isWordChar c = true := by rw [← hp.1]; exact hword x (List.mem_cons_self _ _)
          rw [ih (some c) ((x :: w).length - 1)]
          · simp only [List.length_cons, Nat.add_sub_cancel, htake, List.all_eq_true]
            exact fun z hz => hword z (List.mem_cons_of_mem _ hz)
          · simpa using hpre.length_le
          · exact fun _ => hx

theorem replaceOperators_eq_mark (t : Str) : replaceOperators t = mark none t :=
  replaceFrom_eq_mark t none 0 (by simp) (by simp) (by simp)

/-! ## Marking splits at non-word characters -/

theorem wordAt_append_nonword (w : Str) (hw : ∀ x ∈ w, isWordChar x = true) (c : Char)
    (hc : isWordChar c = false) (b : Str) : ∀ u : Str, wordAt w (u ++ c :: b) = wordAt w u := by
  induction w with
  | nil =>
    intro u
    cases u with
    | nil => simp [wordAt, isWordAt, hc]
    | cons y u => simp [wordAt]
  | cons x w ih =>
    intro u
    cases u with
    | nil =>
      have hx : isWordChar x = true := hw x (List.mem_cons_self _ _)
      have : (x == c) = false := by
        rw [beq_eq_false_iff_ne]; intro h; rw [h, hc] at hx; cases hx
      simp [wordAt, this]
    | cons y u =>
      show (x == y && wordAt w (u ++ c :: b)) = (x == y && wordAt w u)
      rw [ih (fun z hz => hw z (List.mem_cons_of_mem _ hz)) u]

theorem opStart_append_nonword (c : Char) (hc : isWordChar c = false) (u b : Str) :
    opStart (u ++ c :: b) = opStart u := by
  unfold opStart
  apply Bool.eq_iff_iff.mpr
  simp only [List.any_eq_true]
  constructor
  · rintro ⟨w, hw, h⟩
    exact ⟨w, hw, by rw [← wordAt_append_nonword w (operatorWords_word hw).2 c hc b u]; exact h⟩
  · rintro ⟨w, hw, h⟩
    exact ⟨w, hw, by rw [wordAt_append_nonword w (operatorWords_word hw).2 c hc b u]; exact h⟩

theorem opStart_nil : opStart [] = false := by decide

/-- No operator word starts with a character other than g, l, i. -/
theorem opStart_cons_false (c : Char) (t : Str) (hc : c ≠ 'g' ∧ c ≠ 'l' ∧ c ≠ 'i') :
    opStart (c :: t) = false := by
  rw [Bool.eq_false_iff]
  intro h
  simp only [opStart, List.any_eq_true] at h
  obtain ⟨w, hw, h⟩ := h
  obtain ⟨x, w', rfl, hx⟩ := operatorWords_head hw
  simp only [wordAt, Bool.and_eq_true, beq_iff_eq] at h
  rcases hx with hx | hx | hx
  · exact hc.1 (by rw [← h.1, hx])
  · exact hc.2.1 (by rw [← h.1, hx])
  · exact hc.2.2 (by rw [← h.1, hx])

theorem nonword_not_start {c : Char} (hc : isWordChar c = false) :
    c ≠ 'g' ∧ c ≠ 'l' ∧ c ≠ 'i' := by
  refine ⟨?_, ?_, ?_⟩ <;> intro h <;> subst h <;> revert hc <;> decide

theorem mark_append_nonword (c : Char) (hc : isWordChar c = false) (b : Str) :
    ∀ (a : Str) (before : Option Char),
      mark before (a ++ c :: b) = mark before a ++ c :: mark (some c) b := by
  intro a
  induction a with
  | nil =>
    intro before
    simp [mark, marks, opStart_cons_false c b (nonword_not_start hc)]
  | cons x a ih =>
    intro before
    have h : marks before (x :: (a ++ c :: b)) = marks before (x :: a) := by
      simp only [marks]
      rw [← opStart_append_nonword c hc (x :: a) b]; rfl
    show mark before (x :: (a ++ c :: b)) = _
    rw [mark, mark, h, ih (some x)]
    by_cases hm : marks before (x :: a) = true
    · rw [if_pos hm, if_pos hm]; rfl
    · rw [if_neg hm, if_neg hm]; rfl

/-- Characters other than g, l, i are copied. -/
theorem mark_inert (chunk : Str) (h : ∀ c ∈ chunk, c ≠ 'g' ∧ c ≠ 'l' ∧ c ≠ 'i') :
    ∀ (before : Option Char) (t : Str), chunk ≠ [] →
      mark before (chunk ++ t) = chunk ++ mark chunk.getLast? t := by
  induction chunk with
  | nil => intro _ _ hne; exact absurd rfl hne
  | cons c chunk ih =>
    intro before t _
    have hm : marks before (c :: (chunk ++ t)) = false := by
      simp [marks, opStart_cons_false c _ (h c (List.mem_cons_self _ _))]
    show mark before (c :: (chunk ++ t)) = _
    rw [mark, hm, if_neg (by simp)]
    cases chunk with
    | nil => rfl
    | cons d chunk =>
      rw [ih (fun z hz => h z (List.mem_cons_of_mem _ hz)) (some c) t (by simp)]
      rw [List.getLast?_cons_cons]; rfl

/-! ## Escaping and reading back string literals -/

theorem hexDigit_facts (n : Nat) (h : n < 16) :
    hexVal (hexDigit n) = some n ∧ hexDigit n ≠ 'g' ∧ hexDigit n ≠ 'l' ∧ hexDigit n ≠ 'i' := by
  interval_cases n <;> decide

theorem escapeChar_plain {c : Char} (h1 : c ≠ '"') (h2 : c ≠ '\\') (h3 : 32 ≤ c.toNat) :
    escapeChar c = [c] := by
  unfold escapeChar
  rw [if_neg h1, if_neg h2, if_neg, if_neg, if_neg, if_neg, if_neg, if_neg (by omega)]
  all_goals (intro h; subst h; revert h3; decide)

/-- The characters that `JSON.stringify` escapes. -/
theorem special_cases {c : Char} (h : c = '"' ∨ c = '\\' ∨ c.toNat < 32) :
    c = '"' ∨ c = '\\' ∨ c = Char.ofNat 8 ∨ c = Char.ofNat 12 ∨ c = Char.ofNat 10 ∨
      c = Char.ofNat 13 ∨ c = Char.ofNat 9 ∨
      (c.toNat < 32 ∧ escapeChar c =
        ['\\', 'u', '0', '0', hexDigit (c.toNat / 16), hexDigit (c.toNat % 16)]) := by
  by_cases h1 : c = '"'
  · exact Or.inl h1
  by_cases h2 : c = '\\'
  · exact Or.inr (Or.inl h2)
  by_cases h3 : c = Char.ofNat 8
  · exact Or.inr (Or.inr (Or.inl h3))
  by_cases h4 : c = Char.ofNat 12
  · exact Or.inr (Or.inr (Or.inr (Or.inl h4)))
  by_cases h5 : c = Char.ofNat 10
  · exact Or.inr (Or.inr (Or.inr (Or.inr (Or.inl h5))))
  by_cases h6 : c = Char.ofNat 13
  · exact Or.inr (Or.inr (Or.inr (Or.inr (Or.inr (Or.inl h6)))))
  by_cases h7 : c = Char.ofNat 9
  · exact Or.inr (Or.inr (Or.inr (Or.inr (Or.inr (Or.inr (Or.inl h7))))))
  have hlt : c.toNat < 32 := by
    rcases h with h | h | h
    · exact absurd h h1
    · exact absurd h h2
    · exact h
  refine Or.inr (Or.inr (Or.inr (Or.inr (Or.inr (Or.inr (Or.inr ⟨hlt, ?_⟩))))))
  unfold escapeChar
  rw [if_neg h1, if_neg h2, if_neg h3, if_neg h4, if_neg h5, if_neg h6, if_neg h7, if_pos hlt]

theorem special_not_word {c : Char} (h : c = '"' ∨ c = '\\' ∨ c.toNat < 32) :
    isWordChar c = false := by
  rcases h with h | h | h
  · subst h; decide
  · subst h; decide
  · simp only [isWordChar, Bool.or_eq_false_iff, Bool.and_eq_false_iff, decide_eq_false_iff_not,
      beq_eq_false_iff_ne]
    omega

/-- An escape sequence starts with a backslash and contains none of g, l, i. -/
theorem special_chunk {c : Char} (h : c = '"' ∨ c = '\\' ∨ c.toNat < 32) :
    (∃ t, escapeChar c = '\\' :: t) ∧ ∀ z ∈ escapeChar c, z ≠ 'g' ∧ z ≠ 'l' ∧ z ≠ 'i' := by
  rcases special_cases h with h | h | h | h | h | h | h | ⟨hlt, h⟩
  any_goals (subst h; exact ⟨⟨_, rfl⟩, by decide⟩)
  rw [h]
  refine ⟨⟨_, rfl⟩, ?_⟩
  have a := hexDigit_facts (c.toNat / 16) (by omega)
  have b := hexDigit_facts (c.toNat % 16) (by omega)
  intro z hz
  simp only [List.mem_cons, List.mem_singleton, List.not_mem_nil, or_false] at hz
  rcases hz with hz | hz | hz | hz | hz | hz
  any_goals (subst hz; decide)
  · rw [hz]; exact a.2
  · rw [hz]; exact b.2

theorem plain_or_special (c : Char) :
    (c ≠ '"' ∧ c ≠ '\\' ∧ 32 ≤ c.toNat) ∨ (c = '"' ∨ c = '\\' ∨ c.toNat < 32) := by
  by_cases h1 : c = '"'
  · exact Or.inr (Or.inl h1)
  by_cases h2 : c = '\\'
  · exact Or.inr (Or.inr (Or.inl h2))
  by_cases h3 : c.toNat < 32
  · exact Or.inr (Or.inr (Or.inr h3))
  · exact Or.inl ⟨h1, h2, by omega⟩

theorem parseStringBody_cons (c : Char) (rest : Str) : parseStringBody (c :: rest) =
    if c = '"' then some ([], rest)
    else if c = '\\' then
      match rest with
      | [] => none
      | e :: rest1 =>
        if e = 'u' then
          match rest1 with
          | h1 :: h2 :: h3 :: h4 :: rest2 =>
            match unicodeEscape h1 h2 h3 h4 with
            | some ch => consChar ch (parseStringBody rest2)
            | none => none
          | _ => none
        else
          match unescapeChar e with
          | some ch => consChar ch (parseStringBody rest1)
          | none => none
    else if c.toNat < 32 then none
    else consChar c (parseStringBody rest) := by
  rw [parseStringBody.eq_def]
  rfl


/-- Reading an escaped character back. -/
theorem parseStringBody_escapeChar (c : Char) (tail : Str) :
    parseStringBody (escapeChar c ++ tail) = consChar c (parseStringBody tail) := by
  rcases plain_or_special c with ⟨h1, h2, h3⟩ | h
  · rw [escapeChar_plain h1 h2 h3]
    show parseStringBody (c :: tail) = _
    rw [parseStringBody_cons, if_neg h1, if_neg h2, if_neg (by omega)]
  · rcases special_cases h with h | h | h | h | h | h | h | ⟨hlt, h⟩
    any_goals (subst h; show parseStringBody (_ :: _ :: tail) = _;
               rw [parseStringBody_cons]; simp [unescapeChar])
    rw [h]
    have a := (hexDigit_facts (c.toNat / 16) (by omega)).1
    have b := (hexDigit_facts (c.toNat % 16) (by omega)).1
    have h0 : hexVal '0' = some 0 := by decide
    have hu : unicodeEscape '0' '0' (hexDigit (c.toNat / 16)) (hexDigit (c.toNat % 16))
        = some c := by
      simp only [unicodeEscape, h0, a, b]
      have e : ((0 * 16 + 0) * 16 + c.toNat / 16) * 16 + c.toNat % 16 = c.toNat := by omega
      rw [e, if_neg (by omega), Char.ofNat_toNat]
    show parseStringBody ('\\' :: 'u' :: '0' :: '0' :: hexDigit (c.toNat / 16) ::
      hexDigit (c.toNat % 16) :: tail) = _
    rw [parseStringBody_cons, if_neg (by decide), if_pos rfl]
    simp only [if_true, hu]

/-- A string literal is read back as the string it was written from. -/
theorem parseStringBody_escape (x rest : Str) :
    parseStringBody (escape x ++ '"' :: rest) = some (x, rest) := by
  induction x with
  | nil => simp [escape, parseStringBody_cons]
  | cons c x ih =>
    rw [escape, List.append_assoc, parseStringBody_escapeChar, ih]
    rfl

/-! ## The rewriting commutes with serialisation -/

theorem escape_cons (c : Char) (cs : Str) : escape (c :: cs) = escapeChar c ++ escape cs := rfl

/-- Rewriting the escaped body of a literal gives the escaped body of the rewritten string:
`$` is never written into an escape sequence. -/
theorem mark_escape (s : Str) : ∀ before : Option Char,
    mark before (escape s) = escape (markRaw before s) := by
  induction s with
  | nil => intro before; rfl
  | cons c cs ih =>
    intro before
    rcases plain_or_special c with ⟨h1, h2, h3⟩ | h
    · have hc : escapeChar c = [c] := escapeChar_plain h1 h2 h3
      have hd : escapeChar '$' = ['$'] := by decide
      have he : escape (c :: cs) = c :: escape cs := by rw [escape_cons, hc]; rfl
      rw [markRaw, he, mark, hc]
      by_cases hm : marks before (c :: escape cs) = true
      · rw [if_pos hm, if_pos hm, escape_cons, escape_cons, hd, hc, ih]; rfl
      · rw [if_neg hm, if_neg hm, escape_cons, hc, ih]; rfl
    · obtain ⟨⟨t, ht⟩, hin⟩ := special_chunk h
      have hne : escapeChar c ≠ [] := by rw [ht]; simp
      have hm : marks before (escape (c :: cs)) = false := by
        rw [escape_cons, ht]
        simp [marks, opStart_cons_false '\\' _ (by decide)]
      rw [markRaw, hm, if_neg (by simp), escape_cons, escape_cons,
        mark_inert _ hin before _ hne, ih]

theorem quote_nonword : isWordChar '"' = false := by decide

/-- Rewriting a string literal gives the literal of the rewritten string. -/
theorem mark_quote (s : Str) (before : Option Char) (rest : Str) :
    mark before (quote s ++ rest) = quote (markStr s) ++ mark (some '"') rest := by
  have e : quote s ++ rest = [] ++ '"' :: (escape s ++ '"' :: rest) := by simp [quote]
  rw [e, mark_append_nonword '"' quote_nonword, mark_append_nonword '"' quote_nonword,
    mark_escape]
  simp [mark, quote, markStr]

theorem mark_sep (c : Char) (hc : isWordChar c = false) (before : Option Char) (rest : Str) :
    mark before (c :: rest) = c :: mark (some c) rest := by
  have := mark_append_nonword c hc rest [] before
  simpa [mark] using this

mutual
/-- Rewriting the serialisation of a value gives the serialisation of the rewritten value. -/
theorem mark_stringify : ∀ (v : QVal) (before : Option Char) (rest : Str),
    ∃ last, isWordChar last = false ∧
      mark before (stringify v ++ rest) = stringify (markVal v) ++ mark (some last) rest
  | .str s, before, rest => ⟨'"', by decide, by rw [stringify, markVal, stringify, mark_quote]⟩
  | .arr xs, before, rest => by
    refine ⟨']', by decide, ?_⟩
    have h := mark_elems xs (some '[') ']' (by decide) rest
    rw [stringify, markVal, stringify]
    show mark before ('[' :: (stringifyElems xs ++ [']'] ++ rest)) = _
    rw [List.append_assoc, mark_sep '[' (by decide), List.singleton_append, h]
    simp
  | .obj kvs, before, rest => by
    refine ⟨'\x7d', by decide, ?_⟩
    have h := mark_members kvs (some '\x7b') '\x7d' (by decide) rest
    rw [stringify, markVal, stringify]
    show mark before ('\x7b' :: (stringifyMembers kvs ++ ['\x7d'] ++ rest)) = _
    rw [List.append_assoc, mark_sep '\x7b' (by decide), List.singleton_append, h]
    simp
/-- Rewriting the elements of an array, up to the following non-word character. -/
theorem mark_elems : ∀ (xs : List QVal) (before : Option Char) (c : Char),
    isWordChar c = false → ∀ rest : Str,
    mark before (stringifyElems xs ++ c :: rest)
      = stringifyElems (markElems xs) ++ c :: mark (some c) rest
  | [], before, c, hc, rest => by
    simp only [stringifyElems, markElems, List.nil_append]
    exact mark_sep c hc before rest
  | [v], before, c, hc, rest => by
    obtain ⟨last, _, h⟩ := mark_stringify v before (c :: rest)
    rw [stringifyElems, markElems, markElems, stringifyElems, h, mark_sep c hc]
  | v :: w :: vs, before, c, hc, rest => by
    obtain ⟨last, _, h⟩ := mark_stringify v before (',' :: (stringifyElems (w :: vs) ++ c :: rest))
    have ih := mark_elems (w :: vs) (some ',') c hc rest
    rw [stringifyElems, markElems]
    cases hmv : markElems (w :: vs) with
    | nil => simp [markElems] at hmv
    | cons w2 vs2 =>
      rw [stringifyElems, ← hmv, List.append_assoc, List.cons_append, h,
        mark_sep ',' (by decide), ih]
      simp
/-- Rewriting the members of an object, up to the following non-word character. -/
theorem mark_members : ∀ (kvs : List (Str × QVal)) (before : Option Char) (c : Char),
    isWordChar c = false → ∀ rest : Str,
    mark before (stringifyMembers kvs ++ c :: rest)
      = stringifyMembers (markMembers kvs) ++ c :: mark (some c) rest
  | [], before, c, hc, rest => by
    simp only [stringifyMembers, markMembers, List.nil_append]
    exact mark_sep c hc before rest
  | [(k, v)], before, c, hc, rest => by
    obtain ⟨last, _, h⟩ := mark_stringify v (some ':') (c :: rest)
    rw [stringifyMembers, markMembers, markMembers, stringifyMembers, List.append_assoc,
      mark_quote, List.cons_append, mark_sep ':' (by decide), h, mark_sep c hc]
    simp
  | (k, v) :: p :: ps, before, c, hc, rest => by
    obtain ⟨last, _, h⟩ :=
      mark_stringify v (some ':') (',' :: (stringifyMembers (p :: ps) ++ c :: rest))
    have ih := mark_members (p :: ps) (some ',') c hc rest
    rw [stringifyMembers, markMembers]
    cases hmv : markMembers (p :: ps) with
    | nil => cases p; simp [markMembers] at hmv
    | cons p2 ps2 =>
      rw [stringifyMembers, ← hmv]
      simp only [List.append_assoc, List.cons_append]
      rw [mark_quote, mark_sep ':' (by decide), h, mark_sep ',' (by decide), ih]
end

/-- The rewritten query string is the serialisation of the rewritten query. -/
theorem replaceOperators_stringify (v : QVal) :
    replaceOperators (stringify v) = stringify (markVal v) := by
  obtain ⟨last, _, h⟩ := mark_stringify v none []
  rw [replaceOperators_eq_mark]
  simpa [mark] using h

/-! ## Parsing a serialisation -/

theorem parseValue_succ (n : Nat) (c : Char) (rest : Str) : parseValue (n + 1) (c :: rest) =
    if c = '"' then
      (parseStringBody rest).map fun p => (QVal.str p.1, p.2)
    else if c = '[' then
      match rest with
      | ']' :: rest1 => some (QVal.arr [], rest1)
      | _ => (parseElems n rest).map fun p => (QVal.arr p.1, p.2)
    else if c = '\x7b' then
      match rest with
      | '\x7d' :: rest1 => some (QVal.obj [], rest1)
      | _ => (parseMembers n rest).map fun p => (QVal.obj (buildObject p.1), p.2)
    else none := by
  rw [parseValue.eq_def]
  rfl

theorem parseElems_succ (n : Nat) (s : Str) : parseElems (n + 1) s =
    match parseValue n s with
    | none => none
    | some (v, rest) =>
      match rest with
      | ',' :: rest1 => (parseElems n rest1).map fun p => (v :: p.1, p.2)
      | ']' :: rest1 => some ([v], rest1)
      | _ => none := by
  rw [parseElems.eq_def]

theorem parseMembers_succ (n : Nat) (s1 : Str) : parseMembers (n + 1) ('"' :: s1) =
    match parseStringBody s1 with
    | none => none
    | some (k, rest) =>
      match rest with
      | ':' :: rest1 =>
        match parseValue n rest1 with
        | none => none
        | some (v, rest2) =>
          match rest2 with
          | ',' :: rest3 => (parseMembers n rest3).map fun p => ((k, v) :: p.1, p.2)
          | '\x7d' :: rest3 => some ([(k, v)], rest3)
          | _ => none
      | _ => none := by
  rw [parseMembers.eq_def]
  rfl

theorem stringify_head (v : QVal) :
    ∃ c t, stringify v = c :: t ∧ (c = '"' ∨ c = '[' ∨ c = '\x7b') := by
  cases v with
  | str s => exact ⟨'"', _, by rw [stringify, quote]; rfl, Or.inl rfl⟩
  | arr xs => exact ⟨'[', _, by rw [stringify]; rfl, Or.inr (Or.inl rfl)⟩
  | obj kvs => exact ⟨'\x7b', _, by rw [stringify]; rfl, Or.inr (Or.inr rfl)⟩

theorem stringifyElems_head (x : QVal) (xs : List QVal) :
    ∃ c t, stringifyElems (x :: xs) = c :: t ∧ c ≠ ']' := by
  obtain ⟨c, t, h, hc⟩ := stringify_head x
  have hne : c ≠ ']' := by rcases hc with h | h | h <;> subst h <;> decide
  cases xs with
  | nil => exact ⟨c, t, by rw [stringifyElems, h], hne⟩
  | cons w vs => exact ⟨c, _, by rw [stringifyElems, h]; rfl, hne⟩

theorem stringifyMembers_head (k : Str) (v : QVal) (ps : List (Str × QVal)) :
    ∃ t, stringifyMembers ((k, v) :: ps) = '"' :: t := by
  cases ps with
  | nil => exact ⟨_, by rw [stringifyMembers, quote]; rfl⟩
  | cons w vs => exact ⟨_, by rw [stringifyMembers, quote]; rfl⟩

theorem parseValue_array (n : Nat) (c : Char) (t : Str) (hc : c ≠ ']') :
    parseValue (n + 1) ('[' :: c :: t)
      = (parseElems n (c :: t)).map fun p => (QVal.arr p.1, p.2) := by
  rw [parseValue_succ, if_neg (by decide), if_pos rfl]
  split
  · rename_i h; injection h with h1 _; exact absurd h1 hc
  · rfl

theorem parseValue_object (n : Nat) (c : Char) (t : Str) (hc : c ≠ '\x7d') :
    parseValue (n + 1) ('\x7b' :: c :: t)
      = (parseMembers n (c :: t)).map fun p => (QVal.obj (buildObject p.1), p.2) := by
  rw [parseValue_succ, if_neg (by decide), if_neg (by decide), if_pos rfl]
  split
  · rename_i h; injection h with h1 _; exact absurd h1 hc
  · rfl

mutual
/-- Parsing the serialisation of a value, with enough fuel, gives the value back. -/
theorem parseValue_stringify : ∀ (u : QVal) (n : Nat) (rest : Str), size u ≤ n →
    parseValue n (stringify u ++ rest) = some (normalize u, rest)
  | .str s, n, rest, h => by
    cases n with
    | zero => simp [size] at h
    | succ n =>
      rw [stringify, quote]
      show parseValue (n + 1) ('"' :: (escape s ++ ['"'] ++ rest)) = _
      rw [parseValue_succ, if_pos rfl, List.append_assoc, List.singleton_append,
        parseStringBody_escape]
      rfl
  | .arr [], n, rest, h => by
    cases n with
    | zero => simp [size] at h
    | succ n =>
      rw [stringify, stringifyElems]
      show parseValue (n + 1) ('[' :: ']' :: rest) = _
      rw [parseValue_succ, if_neg (by decide), if_pos rfl]
      rfl
  | .arr (x :: xs), n, rest, h => by
    cases n with
    | zero => simp [size] at h
    | succ n =>
      have ih := parseElems_stringify (x :: xs) n rest (by simp) (by rw [size] at h; omega)
      obtain ⟨c, t, hct, hc⟩ := stringifyElems_head x xs
      rw [stringify]
      show parseValue (n + 1) ('[' :: (stringifyElems (x :: xs) ++ [']'] ++ rest)) = _
      rw [List.append_assoc, List.singleton_append]
      rw [hct] at ih ⊢
      rw [List.cons_append] at ih ⊢
      rw [parseValue_array n c _ hc, ih]
      rfl
  | .obj [], n, rest, h => by
    cases n with
    | zero => simp [size] at h
    | succ n =>
      rw [stringify, stringifyMembers]
      show parseValue (n + 1) ('\x7b' :: '\x7d' :: rest) = _
      rw [parseValue_succ, if_neg (by decide), if_neg (by decide), if_pos rfl]
      rfl
  | .obj ((k, v) :: ps), n, rest, h => by
    cases n with
    | zero => simp [size] at h
    | succ n =>
      have ih := parseMembers_stringify ((k, v) :: ps) n rest (by simp) (by rw [size] at h; omega)
      obtain ⟨t, hct⟩ := stringifyMembers_head k v ps
      rw [stringify]
      show parseValue (n + 1) ('\x7b' :: (stringifyMembers ((k, v) :: ps) ++ ['\x7d'] ++ rest)) = _
      rw [List.append_assoc, List.singleton_append]
      rw [hct] at ih ⊢
      rw [List.cons_append] at ih ⊢
      rw [parseValue_object n '"' _ (by decide), ih]
      rfl
/-- Parsing the elements of a non-empty array. -/
theorem parseElems_stringify : ∀ (xs : List QVal) (n : Nat) (rest : Str), xs ≠ [] →
    sizeElems xs ≤ n →
    parseElems n (stringifyElems xs ++ ']' :: rest) = some (normalizeElems xs, rest)
  | [], _, _, hne, _ => absurd rfl hne
  | [x], n, rest, _, h => by
    cases n with
    | zero => simp [sizeElems] at h
    | succ n =>
      have ih := parseValue_stringify x n (']' :: rest) (by simp [sizeElems] at h; omega)
      rw [stringifyElems, parseElems_succ, ih]
      rfl
  | x :: w :: vs, n, rest, _, h => by
    cases n with
    | zero => simp [sizeElems] at h
    | succ n =>
      rw [sizeElems] at h
      have ih := parseValue_stringify x n (',' :: (stringifyElems (w :: vs) ++ ']' :: rest))
        (by omega)
      have ih2 := parseElems_stringify (w :: vs) n rest (by simp) (by omega)
      rw [stringifyElems, List.append_assoc, List.cons_append, parseElems_succ, ih]
      simp only [ih2]
      rfl
/-- Parsing the members of a non-empty object. -/
theorem parseMembers_stringify : ∀ (kvs : List (Str × QVal)) (n : Nat) (rest : Str),
    kvs ≠ [] → sizeMembers kvs ≤ n →
    parseMembers n (stringifyMembers kvs ++ '\x7d' :: rest) = some (normalizeMembers kvs, rest)
  | [], _, _, hne, _ => absurd rfl hne
  | [(k, v)], n, rest, _, h => by
    cases n with
    | zero => simp [sizeMembers] at h
    | succ n =>
      have ih := parseValue_stringify v n ('\x7d' :: rest) (by simp [sizeMembers] at h; omega)
      rw [stringifyMembers, quote]
      show parseMembers (n + 1) ('"' :: (escape k ++ ['"'] ++ ':' :: stringify v ++ '\x7d' :: rest)) = _
      rw [parseMembers_succ]
      simp only [List.append_assoc, List.singleton_append, List.cons_append, List.nil_append,
        parseStringBody_escape, ih]
      rfl
  | (k, v) :: (k2, v2) :: ps, n, rest, _, h => by
    cases n with
    | zero => simp [sizeMembers] at h
    | succ n =>
      rw [sizeMembers] at h
      have ih := parseValue_stringify v n
        (',' :: (stringifyMembers ((k2, v2) :: ps) ++ '\x7d' :: rest)) (by omega)
      have ih2 := parseMembers_stringify ((k2, v2) :: ps) n rest (by simp) (by omega)
      rw [stringifyMembers, quote]
      show parseMembers (n + 1) ('"' :: (escape k ++ ['"'] ++ ':' :: stringify v ++
        ',' :: stringifyMembers ((k2, v2) :: ps) ++ '\x7d' :: rest)) = _
      rw [parseMembers_succ]
      simp only [List.append_assoc, List.singleton_append, List.cons_append, List.nil_append,
        parseStringBody_escape, ih, ih2]
      rfl
end

/-! ## Fuel, and the filter as a rewritten query -/

mutual
theorem size_le_length : ∀ v : QVal, size v ≤ (stringify v).length
  | .str s => by rw [size, stringify, quote]; simp
  | .arr xs => by
    have := sizeElems_le_length xs
    rw [size, stringify]; simp; omega
  | .obj kvs => by
    have := sizeMembers_le_length kvs
    rw [size, stringify]; simp; omega
theorem sizeElems_le_length : ∀ xs : List QVal, sizeElems xs ≤ (stringifyElems xs).length + 1
  | [] => by simp [sizeElems]
  | [v] => by
    have := size_le_length v
    rw [sizeElems, sizeElems, stringifyElems]; omega
  | v :: w :: vs => by
    have := size_le_length v
    have := sizeElems_le_length (w :: vs)
    rw [sizeElems, stringifyElems]; simp; omega
theorem sizeMembers_le_length :
    ∀ kvs : List (Str × QVal), sizeMembers kvs ≤ (stringifyMembers kvs).length + 1
  | [] => by simp [sizeMembers]
  | [(k, v)] => by
    have := size_le_length v
    rw [sizeMembers, sizeMembers, stringifyMembers]; simp; omega
  | (k, v) :: p :: ps => by
    have := size_le_length v
    have := sizeMembers_le_length (p :: ps)
    rw [sizeMembers, stringifyMembers]; simp; omega
end

/-- Every serialisation is accepted by `JSON.parse`. -/
theorem jsonParse_stringify (u : QVal) : jsonParse (stringify u) = some (normalize u) := by
  have h := parseValue_stringify u ((stringify u).length + 1) []
    (Nat.le_succ_of_le (size_le_length u))
  rw [List.append_nil] at h
  rw [jsonParse, h]

/-- The filter is the rewritten query, with repeated keys merged. -/
theorem queryFilter_eq (userId : Str) (query : Query) :
    queryFilter userId query
      = some (normalize (markVal (QVal.obj (reqQuery userId query)))) := by
  rw [queryFilter, queryStr, replaceOperators_stringify, jsonParse_stringify]

/-! ## The rewriting of a string is injective -/

theorem marks_escape_true {b : Option Char} {c : Char} {t : Str}
    (h : marks b (escape (c :: t)) = true) :
    escapeChar c = [c] ∧ (c = 'g' ∨ c = 'l' ∨ c = 'i') ∧ opStart (escape (c :: t)) = true ∧
      isWordAt b = false := by
  have hs : opStart (escape (c :: t)) = true ∧ isWordAt b = false := by
    simp only [marks, Bool.and_eq_true, Bool.not_eq_true'] at h
    exact ⟨h.2, h.1⟩
  rcases plain_or_special c with ⟨h1, h2, h3⟩ | hsp
  · have hc := escapeChar_plain h1 h2 h3
    refine ⟨hc, ?_, hs.1, hs.2⟩
    by_contra hne
    have := opStart_cons_false c (escape t) (by tauto)
    rw [escape_cons, hc] at hs
    simp only [List.singleton_append] at hs
    rw [this] at hs
    exact absurd hs.1 (by simp)
  · obtain ⟨⟨u, hu⟩, _⟩ := special_chunk hsp
    rw [escape_cons, hu] at hs
    have := opStart_cons_false '\\' (u ++ escape t) (by decide)
    simp only [List.cons_append] at hs
    rw [this] at hs
    exact absurd hs.1 (by simp)

theorem markRaw_cons (b : Option Char) (c : Char) (cs : Str) :
    markRaw b (c :: cs) =
      if marks b (escape (c :: cs)) then '$' :: c :: markRaw (escapeChar c).getLast? cs
      else c :: markRaw (escapeChar c).getLast? cs := by
  rw [markRaw]

theorem markRaw_injective_aux (n : Nat) : ∀ (s1 s2 : Str) (b : Option Char),
    s1.length + s2.length ≤ n → markRaw b s1 = markRaw b s2 → s1 = s2 := by
  induction n with
  | zero =>
    intro s1 s2 b hn _
    have h1 : s1 = [] := List.length_eq_zero.mp (by omega)
    have h2 : s2 = [] := List.length_eq_zero.mp (by omega)
    rw [h1, h2]
  | succ n ih =>
    -- a marked head against an unmarked head
    have key : ∀ (c1 : Char) (t1 : Str) (c2 : Char) (t2 : Str) (b : Option Char),
        (c1 :: t1).length + (c2 :: t2).length ≤ n + 1 →
        marks b (escape (c1 :: t1)) = true → marks b (escape (c2 :: t2)) = false →
        markRaw b (c1 :: t1) = markRaw b (c2 :: t2) → False := by
      intro c1 t1 c2 t2 b hn m1 m2 h
      obtain ⟨hc1, hgli, hop, _⟩ := marks_escape_true m1
      rw [markRaw_cons, markRaw_cons, if_pos m1, m2, if_neg (by simp)] at h
      injection h with h2 h
      subst h2
      have hd : (escapeChar '$').getLast? = some '$' := by decide
      rw [hd, hc1] at h
      cases t2 with
      | nil => rw [markRaw] at h; cases h
      | cons c3 t3 =>
        rw [markRaw_cons] at h
        by_cases m3 : marks (some '$') (escape (c3 :: t3)) = true
        · rw [if_pos m3] at h
          injection h with h3 _
          rcases hgli with g | g | g <;> rw [g] at h3 <;> revert h3 <;> decide
        · rw [if_neg m3] at h
          injection h with h3 h
          subst h3
          rw [hc1] at h
          have ht : t1 = t3 := ih t1 t3 _ (by simp only [List.length_cons] at hn; omega) h
          subst ht
          apply m3
          simp [marks, hop, isWordAt, isWordChar]
    intro s1 s2 b hn h
    cases s1 with
    | nil =>
      cases s2 with
      | nil => rfl
      | cons c2 t2 => rw [markRaw_cons] at h; split at h <;> cases h
    | cons c1 t1 =>
      cases s2 with
      | nil => rw [markRaw_cons] at h; split at h <;> cases h
      | cons c2 t2 =>
        by_cases m1 : marks b (escape (c1 :: t1)) = true
        · by_cases m2 : marks b (escape (c2 :: t2)) = true
          · rw [markRaw_cons, markRaw_cons, if_pos m1, if_pos m2] at h
            injection h with _ h
            injection h with hc h
            subst hc
            rw [ih t1 t2 _ (by simp only [List.length_cons] at hn; omega) h]
          · exact absurd (key c1 t1 c2 t2 b hn m1 (by simpa using m2) h) id
        · by_cases m2 : marks b (escape (c2 :: t2)) = true
          · exact absurd (key c2 t2 c1 t1 b (by rw [Nat.add_comm]; exact hn) m2
              (by simpa using m1) h.symm) id
          · rw [markRaw_cons, markRaw_cons, if_neg m1, if_neg m2] at h
            injection h with hc h
            subst hc
            rw [ih t1 t2 _ (by simp only [List.length_cons] at hn; omega) h]

/-- Distinct keys stay distinct under the rewriting. -/
theorem markStr_injective : Function.Injective markStr :=
  fun s1 s2 h => markRaw_injective_aux _ s1 s2 _ (Nat.le_refl _) h

/-! ## Objects without repeated keys -/

theorem keys_cons {α : Type} (p : Str × α) (t : List (Str × α)) :
    keys (p :: t) = p.1 :: keys t := rfl

theorem mem_keys_setKey {α : Type} (k : Str) (v : α) (x : Str) :
    ∀ q : List (Str × α), x ∈ keys (setKey k v q) ↔ x = k ∨ x ∈ keys q
  | [] => by simp [setKey, keys]
  | (k', v') :: t => by
    by_cases h : k' = k
    · rw [setKey, if_pos h, keys_cons, keys_cons]
      subst h
      simp
    · rw [setKey, if_neg h, keys_cons, keys_cons, List.mem_cons, List.mem_cons,
        mem_keys_setKey k v x t]
      tauto

theorem nodup_keys_setKey {α : Type} (k : Str) (v : α) :
    ∀ q : List (Str × α), (keys q).Nodup → (keys (setKey k v q)).Nodup
  | [], _ => by simp [setKey, keys]
  | (k', v') :: t, h => by
    rw [keys_cons, List.nodup_cons] at h
    by_cases hk : k' = k
    · rw [setKey, if_pos hk, keys_cons, List.nodup_cons]
      subst hk
      exact h
    · rw [setKey, if_neg hk, keys_cons, List.nodup_cons, mem_keys_setKey]
      exact ⟨fun hm => hm.elim hk h.1, nodup_keys_setKey k v t h.2⟩

theorem keys_deleteKey_sublist {α : Type} (k : Str) :
    ∀ q : List (Str × α), (keys (deleteKey k q)).Sublist (keys q)
  | [] => by simp [deleteKey, keys]
  | (k', v') :: t => by
    by_cases hk : k' = k
    · rw [deleteKey, if_pos hk, keys_cons]
      exact (keys_deleteKey_sublist k t).cons _
    · rw [deleteKey, if_neg hk, keys_cons, keys_cons]
      exact (keys_deleteKey_sublist k t).cons₂ _

theorem lookup_setKey_self {α : Type} (k : Str) (v : α) :
    ∀ o : List (Str × α), lookup k (setKey k v o) = some v
  | [] => by simp [setKey, lookup]
  | (k', v') :: t => by
    by_cases hk : k' = k
    · rw [setKey, if_pos hk, lookup, if_pos rfl]
    · rw [setKey, if_neg hk, lookup, if_neg hk, lookup_setKey_self k v t]

theorem lookup_setKey_ne {α : Type} (k : Str) (v : α) (x : Str) (hx : x ≠ k) :
    ∀ o : List (Str × α), lookup x (setKey k v o) = lookup x o
  | [] => by simp [setKey, lookup, Ne.symm hx]
  | (k', v') :: t => by
    by_cases hk : k' = k
    · rw [setKey, if_pos hk, lookup, lookup, if_neg (Ne.symm hx), hk, if_neg (Ne.symm hx)]
    · rw [setKey, if_neg hk, lookup, lookup, lookup_setKey_ne k v x hx t]

theorem lookup_deleteKey_ne {α : Type} (k : Str) (x : Str) (hx : x ≠ k) :
    ∀ o : List (Str × α), lookup x (deleteKey k o) = lookup x o
  | [] => rfl
  | (k', v') :: t => by
    by_cases hk : k' = k
    · rw [deleteKey, if_pos hk, lookup, hk, if_neg (Ne.symm hx), lookup_deleteKey_ne k x hx t]
    · rw [deleteKey, if_neg hk, lookup, lookup, lookup_deleteKey_ne k x hx t]

theorem setKey_append_new {α : Type} (k : Str) (v : α) :
    ∀ o : List (Str × α), k ∉ keys o → setKey k v o = o ++ [(k, v)]
  | [], _ => rfl
  | (k', v') :: t, h => by
    rw [keys_cons, List.mem_cons, not_or] at h
    rw [setKey, if_neg (Ne.symm h.1), setKey_append_new k v t h.2]
    rfl

theorem foldl_setKey_nodup (l : List (Str × QVal)) : ∀ acc : List (Str × QVal),
    (∀ k ∈ keys l, k ∉ keys acc) → (keys l).Nodup →
    l.foldl (fun o p => setKey p.1 p.2 o) acc = acc ++ l := by
  induction l with
  | nil => intro acc _ _; simp
  | cons p l ih =>
    intro acc hd hn
    rw [keys_cons, List.nodup_cons] at hn
    rw [List.foldl_cons, setKey_append_new p.1 p.2 acc (hd p.1 (List.mem_cons_self _ _)),
      ih (acc ++ [p]) ?_ hn.2]
    · simp
    · intro k hk hmem
      have hk' : k ∈ keys acc ∨ k = p.1 := by
        unfold keys at hmem ⊢
        rw [List.map_append, List.mem_append, List.map_singleton, List.mem_singleton] at hmem
        exact hmem
      rcases hk' with h | h
      · exact hd k (List.mem_cons_of_mem _ hk) h
      · rw [h] at hk; exact hn.1 hk

/-- An object literal without repeated keys is parsed into the same members. -/
theorem buildObject_nodup (l : List (Str × QVal)) (h : (keys l).Nodup) : buildObject l = l := by
  rw [buildObject, foldl_setKey_nodup l [] (fun _ _ => by simp [keys]) h]
  rfl

theorem keys_markMembers :
    ∀ kvs : List (Str × QVal), keys (markMembers kvs) = (keys kvs).map markStr
  | [] => rfl
  | (k, v) :: ps => by
    rw [markMembers, keys_cons, keys_cons, List.map_cons, keys_markMembers ps]

mutual
theorem wf_markVal : ∀ v : QVal, wf v = true → wf (markVal v) = true
  | .str _, _ => by rw [markVal, wf]
  | .arr xs, h => by
    rw [wf] at h
    rw [markVal, wf, wfElems_markElems xs h]
  | .obj kvs, h => by
    rw [wf, Bool.and_eq_true, decide_eq_true_iff] at h
    rw [markVal, wf, Bool.and_eq_true, decide_eq_true_iff, keys_markMembers]
    exact ⟨h.1.map markStr_injective, wfMembers_markMembers kvs h.2⟩
theorem wfElems_markElems : ∀ xs : List QVal, wfElems xs = true → wfElems (markElems xs) = true
  | [], _ => by rw [markElems, wfElems]
  | v :: vs, h => by
    rw [wfElems, Bool.and_eq_true] at h
    rw [markElems, wfElems, wf_markVal v h.1, wfElems_markElems vs h.2]
    rfl
theorem wfMembers_markMembers :
    ∀ kvs : List (Str × QVal), wfMembers kvs = true → wfMembers (markMembers kvs) = true
  | [], _ => by rw [markMembers, wfMembers]
  | (k, v) :: ps, h => by
    rw [wfMembers, Bool.and_eq_true] at h
    rw [markMembers, wfMembers, wf_markVal v h.1, wfMembers_markMembers ps h.2]
    rfl
end

mutual
theorem normalize_wf : ∀ v : QVal, wf v = true → normalize v = v
  | .str _, _ => by rw [normalize]
  | .arr xs, h => by
    rw [wf] at h
    rw [normalize, normalizeElems_wf xs h]
  | .obj kvs, h => by
    rw [wf, Bool.and_eq_true, decide_eq_true_iff] at h
    rw [normalize, normalizeMembers_wf kvs h.2, buildObject_nodup kvs h.1]
theorem normalizeElems_wf : ∀ xs : List QVal, wfElems xs = true → normalizeElems xs = xs
  | [], _ => by rw [normalizeElems]
  | v :: vs, h => by
    rw [wfElems, Bool.and_eq_true] at h
    rw [normalizeElems, normalize_wf v h.1, normalizeElems_wf vs h.2]
theorem normalizeMembers_wf :
    ∀ kvs : List (Str × QVal), wfMembers kvs = true → normalizeMembers kvs = kvs
  | [], _ => by rw [normalizeMembers]
  | (k, v) :: ps, h => by
    rw [wfMembers, Bool.and_eq_true] at h
    rw [normalizeMembers, normalize_wf v h.1, normalizeMembers_wf ps h.2]
end

theorem wfMembers_setKey (k : Str) (v : QVal) (hv : wf v = true) :
    ∀ q : List (Str × QVal), wfMembers q = true → wfMembers (setKey k v q) = true
  | [], _ => by rw [setKey, wfMembers, hv, wfMembers]; rfl
  | (k', v') :: t, h => by
    rw [wfMembers, Bool.and_eq_true] at h
    by_cases hk : k' = k
    · rw [setKey, if_pos hk, wfMembers, hv, h.2]; rfl
    · rw [setKey, if_neg hk, wfMembers, h.1, wfMembers_setKey k v hv t h.2]; rfl

theorem wfMembers_deleteKey (k : Str) :
    ∀ q : List (Str × QVal), wfMembers q = true → wfMembers (deleteKey k q) = true
  | [], _ => by rw [deleteKey, wfMembers]
  | (k', v') :: t, h => by
    rw [wfMembers, Bool.and_eq_true] at h
    by_cases hk : k' = k
    · rw [deleteKey, if_pos hk]; exact wfMembers_deleteKey k t h.2
    · rw [deleteKey, if_neg hk, wfMembers, h.1, wfMembers_deleteKey k t h.2]; rfl

theorem reqQuery_eq (userId : Str) (query : Query) :
    reqQuery userId query =
      deleteKey "limit".toList (deleteKey "page".toList (deleteKey "sort".toList
        (deleteKey "select".toList (setKey "user".toList (QVal.str userId) query)))) := rfl

/-- The copy of the query that is serialised is a well-formed object. -/
theorem wf_reqQuery (userId : Str) (query : Query) (h : wf (QVal.obj query) = true) :
    wf (QVal.obj (reqQuery userId query)) = true := by
  rw [wf, Bool.and_eq_true, decide_eq_true_iff] at h ⊢
  rw [reqQuery_eq]
  refine ⟨?_, ?_⟩
  · have h1 := nodup_keys_setKey "user".toList (QVal.str userId) query h.1
    exact (((h1.sublist (keys_deleteKey_sublist _ _)).sublist
      (keys_deleteKey_sublist _ _)).sublist (keys_deleteKey_sublist _ _)).sublist
      (keys_deleteKey_sublist _ _)
  · exact wfMembers_deleteKey _ _ (wfMembers_deleteKey _ _ (wfMembers_deleteKey _ _
      (wfMembers_deleteKey _ _ (wfMembers_setKey _ _ (by rw [wf]) _ h.2))))

/-- For a well-formed query the filter is the query with every key and string rewritten. -/
theorem queryFilter_wf (userId : Str) (query : Query) (h : wf (QVal.obj query) = true) :
    queryFilter userId query = some (QVal.obj (markMembers (reqQuery userId query))) := by
  rw [queryFilter_eq, normalize_wf _ (wf_markVal _ (wf_reqQuery userId query h)), markVal]

theorem lookup_markMembers (k : Str) :
    ∀ kvs : List (Str × QVal), lookup (markStr k) (markMembers kvs) = (lookup k kvs).map markVal
  | [] => rfl
  | (k', v') :: t => by
    by_cases hk : k' = k
    · rw [markMembers, lookup, lookup, if_pos hk, if_pos (by rw [hk])]; rfl
    · rw [markMembers, lookup, lookup, if_neg hk, if_neg (fun e => hk (markStr_injective e)),
        lookup_markMembers k t]

theorem lookup_reqQuery (userId : Str) (query : Query) (x : Str)
    (h1 : x ≠ "select".toList) (h2 : x ≠ "sort".toList) (h3 : x ≠ "page".toList)
    (h4 : x ≠ "limit".toList) :
    lookup x (reqQuery userId query) = lookup x (setKey "user".toList (QVal.str userId) query) := by
  rw [reqQuery_eq, lookup_deleteKey_ne _ _ h4, lookup_deleteKey_ne _ _ h3,
    lookup_deleteKey_ne _ _ h2, lookup_deleteKey_ne _ _ h1]

/-! ## Strings without operator words are not rewritten -/

theorem wordAt_escape (w : Str) (hw : ∀ x ∈ w, isWordChar x = true) :
    ∀ s : Str, wordAt w (escape s) = true → wordAt w s = true := by
  induction w with
  | nil =>
    intro s h
    cases s with
    | nil => exact h
    | cons c cs =>
      rcases plain_or_special c with ⟨h1, h2, h3⟩ | hsp
      · rw [escape_cons, escapeChar_plain h1 h2 h3] at h; exact h
      · simp [wordAt, isWordAt, special_not_word hsp]
  | cons x w ih =>
    intro s h
    cases s with
    | nil => exact h
    | cons c cs =>
      rcases plain_or_special c with ⟨h1, h2, h3⟩ | hsp
      · rw [escape_cons, escapeChar_plain h1 h2 h3] at h
        simp only [List.singleton_append, wordAt, Bool.and_eq_true] at h ⊢
        exact ⟨h.1, ih (fun z hz => hw z (List.mem_cons_of_mem _ hz)) cs h.2⟩
      · obtain ⟨⟨u, hu⟩, _⟩ := special_chunk hsp
        rw [escape_cons, hu] at h
        simp only [List.cons_append, wordAt, Bool.and_eq_true, beq_iff_eq] at h
        have hx := hw x (List.mem_cons_self _ _)
        rw [h.1] at hx
        exact absurd hx (by decide)

theorem opStart_escape (s : Str) (h : opStart (escape s) = true) : opStart s = true := by
  simp only [opStart, List.any_eq_true] at h ⊢
  obtain ⟨w, hw, h⟩ := h
  exact ⟨w, hw, wordAt_escape w (operatorWords_word hw).2 s h⟩

theorem markRaw_clean (s : Str) : ∀ (b b' : Option Char),
    (isWordAt b' = false → isWordAt b = false) → occursFrom b s = false → markRaw b' s = s := by
  induction s with
  | nil => intro _ _ _ _; rfl
  | cons c cs ih =>
    intro b b' hb h
    rw [occursFrom, Bool.or_eq_false_iff, matchOperator_isSome] at h
    have hm : ¬ marks b' (escape (c :: cs)) = true := by
      intro hm
      obtain ⟨_, _, hop, hw⟩ := marks_escape_true hm
      have := h.1
      rw [marks, hb hw, opStart_escape _ hop] at this
      cases this
    rw [markRaw_cons, if_neg hm, ih (some c) _ ?_ h.2]
    intro hl
    rcases plain_or_special c with ⟨h1, h2, h3⟩ | hsp
    · rw [escapeChar_plain h1 h2 h3] at hl; exact hl
    · exact special_not_word hsp

/-- A key or string value without an operator word is left as it is. -/
theorem markStr_clean (s : Str) (h : hasOperatorWord s = false) : markStr s = s :=
  markRaw_clean s none (some '"') (fun _ => rfl) h

/-- A key that is an operator word gets the `$` prefix. -/
theorem markStr_operator (w : Str) (h : w ∈ operatorWords) : markStr w = '$' :: w := by
  simp only [operatorWords, List.mem_cons, List.mem_singleton, List.not_mem_nil, or_false] at h
  rcases h with h | h | h | h | h <;> subst h <;> decide

theorem hasOperatorWord_operator (w : Str) (h : w ∈ operatorWords) :
    hasOperatorWord w = true ∧ hasOperatorWord ('$' :: w) = true := by
  simp only [operatorWords, List.mem_cons, List.mem_singleton, List.not_mem_nil, or_false] at h
  rcases h with h | h | h | h | h <;> subst h <;> decide

theorem occursFrom_inert (s : Str) (h : ∀ c ∈ s, c ≠ 'g' ∧ c ≠ 'l' ∧ c ≠ 'i') :
    ∀ b : Option Char, occursFrom b s = false := by
  induction s with
  | nil => intro _; rfl
  | cons c cs ih =>
    intro b
    rw [occursFrom, matchOperator_isSome, marks,
      opStart_cons_false c cs (h c (List.mem_cons_self _ _)),
      ih (fun z hz => h z (List.mem_cons_of_mem _ hz))]
    simp

/-- A user id contains no operator word. -/
theorem isObjectId_clean (s : Str) (h : isObjectId s = true) : hasOperatorWord s = false := by
  apply occursFrom_inert
  intro c hc
  simp only [isObjectId, Bool.and_eq_true, List.all_eq_true, Bool.or_eq_true,
    decide_eq_true_iff] at h
  have := h.2 c hc
  refine ⟨?_, ?_, ?_⟩ <;> intro e <;> subst e <;> revert this <;> decide

theorem renameOperator_eq_markStr (k : Str)
    (h : (decide (k ∈ operatorWords) || !hasOperatorWord k) = true) :
    markStr k = renameOperator k := by
  by_cases hk : k ∈ operatorWords
  · rw [markStr_operator k hk, renameOperator, if_pos hk]
  · have hc : hasOperatorWord k = false := by simpa [hk] using h
    rw [markStr_clean k hc, renameOperator, if_neg hk]

mutual
/-- On a clean value the rewriting renames the operator keys and nothing else. -/
theorem markVal_clean : ∀ v : QVal, cleanVal v = true → markVal v = renameOps v
  | .str s, h => by
    rw [cleanVal, Bool.not_eq_true'] at h
    rw [markVal, renameOps, markStr_clean s h]
  | .arr xs, h => by
    rw [cleanVal] at h
    rw [markVal, renameOps, markElems_clean xs h]
  | .obj kvs, h => by
    rw [cleanVal] at h
    rw [markVal, renameOps, markMembers_clean kvs h]
theorem markElems_clean : ∀ xs : List QVal, cleanElems xs = true → markElems xs = renameOpsElems xs
  | [], _ => by rw [markElems, renameOpsElems]
  | v :: vs, h => by
    rw [cleanElems, Bool.and_eq_true] at h
    rw [markElems, renameOpsElems, markVal_clean v h.1, markElems_clean vs h.2]
theorem markMembers_clean :
    ∀ kvs : List (Str × QVal), cleanMembers kvs = true → markMembers kvs = renameOpsMembers kvs
  | [], _ => by rw [markMembers, renameOpsMembers]
  | (k, v) :: ps, h => by
    rw [cleanMembers, Bool.and_eq_true, Bool.and_eq_true] at h
    rw [markMembers, renameOpsMembers, markVal_clean v h.1.2, markMembers_clean ps h.2,
      renameOperator_eq_markStr k h.1.1]
end

theorem markMembers_cleanQuery : ∀ q : Query, cleanQuery q = true →
    markMembers q = q.map fun p => (p.1, renameOps p.2)
  | [], _ => rfl
  | (k, v) :: ps, h => by
    simp only [cleanQuery, List.all_cons, Bool.and_eq_true, Bool.not_eq_true'] at h
    rw [markMembers, List.map_cons, markStr_clean k h.1.1, markVal_clean v h.1.2,
      markMembers_cleanQuery ps (by simpa [cleanQuery] using h.2)]

theorem cleanQuery_deleteKey (k : Str) : ∀ q : Query, cleanQuery q = true →
    cleanQuery (deleteKey k q) = true
  | [], _ => rfl
  | (k', v') :: t, h => by
    have h' : (!hasOperatorWord k' && cleanVal v') = true ∧ cleanQuery t = true := by
      simpa [cleanQuery] using h
    by_cases hk : k' = k
    · rw [deleteKey, if_pos hk]; exact cleanQuery_deleteKey k t h'.2
    · rw [deleteKey, if_neg hk]
      have := cleanQuery_deleteKey k t h'.2
      simp only [cleanQuery, List.all_cons, Bool.and_eq_true] at this ⊢
      exact ⟨by simpa using h'.1, this⟩

theorem cleanQuery_setKey (k : Str) (v : QVal) (hk : hasOperatorWord k = false)
    (hv : cleanVal v = true) : ∀ q : Query, cleanQuery q = true →
    cleanQuery (setKey k v q) = true
  | [], _ => by simp [cleanQuery, setKey, hk, hv]
  | (k', v') :: t, h => by
    have h' : (!hasOperatorWord k' && cleanVal v') = true ∧ cleanQuery t = true := by
      simpa [cleanQuery] using h
    by_cases hkk : k' = k
    · rw [setKey, if_pos hkk]
      simp only [cleanQuery, List.all_cons, Bool.and_eq_true] at h' ⊢
      exact ⟨by simp [hk, hv], h'.2⟩
    · rw [setKey, if_neg hkk]
      have := cleanQuery_setKey k v hk hv t h'.2
      simp only [cleanQuery, List.all_cons, Bool.and_eq_true] at this ⊢
      exact ⟨by simpa using h'.1, this⟩

theorem cleanQuery_reqQuery (userId : Str) (query : Query) (hu : isObjectId userId = true)
    (h : cleanQuery query = true) : cleanQuery (reqQuery userId query) = true := by
  rw [reqQuery_eq]
  exact cleanQuery_deleteKey _ _ (cleanQuery_deleteKey _ _ (cleanQuery_deleteKey _ _
    (cleanQuery_deleteKey _ _ (cleanQuery_setKey _ _ (by decide)
      (by rw [cleanVal, isObjectId_clean userId hu]; rfl) _ h))))

/-! ## The copy of the query, as a filter and a map -/

theorem deleteKey_eq_filter {α : Type} (k : Str) :
    ∀ l : List (Str × α), deleteKey k l = l.filter fun p => !decide (p.1 = k)
  | [] => rfl
  | (k', v') :: t => by
    by_cases hk : k' = k
    · rw [deleteKey, if_pos hk, List.filter_cons_of_neg (by simp [hk]), deleteKey_eq_filter k t]
    · rw [deleteKey, if_neg hk, List.filter_cons_of_pos (by simp [hk]), deleteKey_eq_filter k t]

theorem reqQuery_eq_filter (userId : Str) (query : Query) :
    reqQuery userId query
      = (setKey "user".toList (QVal.str userId) query).filter
          fun p => !reservedKeys.contains p.1 := by
  rw [reqQuery_eq, deleteKey_eq_filter, deleteKey_eq_filter, deleteKey_eq_filter,
    deleteKey_eq_filter, List.filter_filter, List.filter_filter, List.filter_filter]
  apply List.filter_congr
  intro p _
  apply Bool.eq_iff_iff.mpr
  simp only [reservedKeys, List.contains_cons, List.contains_nil, Bool.or_false,
    Bool.and_eq_true, Bool.not_eq_true', decide_eq_false_iff_not, Bool.or_eq_false_iff,
    beq_eq_false_iff_ne, ne_eq]
  tauto

theorem filter_setKey {α : Type} (keep : Str → Bool) (k : Str) (v : α) (hk : keep k = true) :
    ∀ q : List (Str × α), (setKey k v q).filter (fun p => keep p.1)
      = setKey k v (q.filter fun p => keep p.1)
  | [] => by simp [setKey, hk]
  | (k', v') :: t => by
    by_cases h : k' = k
    · subst h
      rw [setKey, if_pos rfl, List.filter_cons_of_pos (by simpa using hk),
        List.filter_cons_of_pos (by simpa using hk), setKey, if_pos rfl]
    · rw [setKey, if_neg h]
      by_cases hkeep : keep k' = true
      · rw [List.filter_cons_of_pos (by simpa using hkeep),
          List.filter_cons_of_pos (by simpa using hkeep), setKey, if_neg h,
          filter_setKey keep k v hk t]
      · rw [List.filter_cons_of_neg (by simpa using hkeep),
          List.filter_cons_of_neg (by simpa using hkeep), filter_setKey keep k v hk t]

theorem map_setKey (f : QVal → QVal) (k : Str) (v : QVal) :
    ∀ q : Query, (setKey k v q).map (fun p => (p.1, f p.2))
      = setKey k (f v) (q.map fun p => (p.1, f p.2))
  | [] => rfl
  | (k', v') :: t => by
    by_cases h : k' = k
    · rw [setKey, if_pos h, List.map_cons, List.map_cons, setKey, if_pos h]
    · rw [setKey, if_neg h, List.map_cons, List.map_cons, setKey, if_neg h, map_setKey f k v t]

/-- The code's copy of the query, with the operator keys renamed, is the filter of the
specification. -/
theorem reqQuery_renamed (userId : Str) (query : Query) :
    QVal.obj ((reqQuery userId query).map fun p => (p.1, renameOps p.2))
      = specFilter userId query := by
  rw [specFilter, reqQuery_eq_filter,
    filter_setKey (fun k => !reservedKeys.contains k) _ _ (by decide), map_setKey, renameOps]

/-! ## parseInt -/

theorem listHandler_plan {srt userId : Str} {query : Query} {total : Int} {plan : ListPlan}
    (h : listHandler srt userId query total = some plan) :
    queryFilter userId query = some plan.findFilter ∧
    plan.countFilter = plan.findFilter ∧
    plan.page = intParam (lookup "page".toList query) 1 ∧
    plan.limit = intParam (lookup "limit".toList query) 25 ∧
    plan.skip = (plan.page - 1) * plan.limit ∧
    plan.pagination = paginate plan.page plan.limit total := by
  unfold listHandler at h
  simp only [] at h
  rw [lookup_setKey_ne _ _ "page".toList (by decide), lookup_setKey_ne _ _ "limit".toList (by decide)]
    at h
  cases hf : queryFilter userId query with
  | none => rw [hf] at h; cases h
  | some f =>
    rw [hf] at h
    simp only at h
    split at h
    · cases h
    · cases h
    · injection h with h
      subst h
      exact ⟨rfl, rfl, rfl, rfl, rfl, rfl⟩

theorem getCalls_or_getMessages {userId : Str} {query : Query} {total : Int} {plan : ListPlan}
    (h : getCalls userId query total = some plan ∨ getMessages userId query total = some plan) :
    ∃ srt, listHandler srt userId query total = some plan :=
  h.elim (fun h => ⟨_, h⟩) (fun h => ⟨_, h⟩)

/-! ## Pagination (C1) and the page parameters (C2) -/

/-- C1: in `getCalls` and `getMessages`, for a parsed page of at least one, a limit of at
least one and a non-negative total, with `skip = (page - 1) * limit`: `pagination.next` is
present iff `skip + limit < total` and is then `{page + 1, limit}`; `pagination.prev` is
present iff `page > 1` and is then `{page - 1, limit}`.  With thirty records and ten per
page, page 1 has `next = {2, 10}` and no `prev`, page 2 has both, page 3 has `prev` only. -/
theorem pagination_next_prev (userId : Str) (query : Query) (total : Int) (plan : ListPlan)
    (hplan : getCalls userId query total = some plan ∨
      getMessages userId query total = some plan)
    (hpage : 1 ≤ plan.page) (hlimit : 1 ≤ plan.limit) (_htotal : 0 ≤ total) :
    plan.skip = (plan.page - 1) * plan.limit ∧
    (plan.pagination.next.isSome = true ↔ plan.skip + plan.limit < total) ∧
    (plan.skip + plan.limit < total →
      plan.pagination.next = some { page := plan.page + 1, limit := plan.limit }) ∧
    (plan.pagination.prev.isSome = true ↔ 1 < plan.page) ∧
    (1 < plan.page →
      plan.pagination.prev = some { page := plan.page - 1, limit := plan.limit }) ∧
    (getCalls exUser (pageQuery "1" "10") 30).map ListPlan.pagination
      = some { next := some { page := 2, limit := 10 }, prev := none } ∧
    (getCalls exUser (pageQuery "2" "10") 30).map ListPlan.pagination
      = some { next := some { page := 3, limit := 10 }, prev := some { page := 1, limit := 10 } } ∧
    (getCalls exUser (pageQuery "3" "10") 30).map ListPlan.pagination
      = some { next := none, prev := some { page := 2, limit := 10 } } ∧
    (getMessages exUser (pageQuery "1" "10") 30).map ListPlan.pagination
      = some { next := some { page := 2, limit := 10 }, prev := none } ∧
    (getMessages exUser (pageQuery "2" "10") 30).map ListPlan.pagination
      = some { next := some { page := 3, limit := 10 }, prev := some { page := 1, limit := 10 } } ∧
    (getMessages exUser (pageQuery "3" "10") 30).map ListPlan.pagination
      = some { next := none, prev := some { page := 2, limit := 10 } } := by
  obtain ⟨srt, h⟩ := getCalls_or_getMessages hplan
  obtain ⟨_, _, _, _, hskip, hpag⟩ := listHandler_plan h
  have hend : plan.skip + plan.limit = plan.page * plan.limit := by rw [hskip]; ring
  have hstart : (plan.page - 1) * plan.limit > 0 ↔ 1 < plan.page := by
    constructor
    · intro hpos
      by_contra hle
      have h1 : plan.page = 1 := by omega
      rw [h1] at hpos
      simp at hpos
    · intro hlt
      exact Int.mul_pos (by omega) (by omega)
  refine ⟨hskip, ?_, ?_, ?_, ?_, by decide, by decide, by decide, by decide, by decide,
    by decide⟩
  · rw [hpag, hend]
    simp only [paginate]
    split <;> simp_all
  · intro hlt
    rw [hend] at hlt
    rw [hpag]
    simp only [paginate, if_pos hlt]
  · rw [hpag, ← hstart]
    simp only [paginate]
    split <;> simp_all
  · intro hlt
    rw [hpag]
    simp only [paginate, if_pos (hstart.mpr hlt)]

/-- C1, at page 2 of thirty records with ten per page. -/
theorem pagination_next_prev_witness :
    ∃ plan, getCalls exUser (pageQuery "2" "10") 30 = some plan ∧
      1 ≤ plan.page ∧ 1 ≤ plan.limit ∧ plan.skip = 10 ∧
      plan.pagination.next = some { page := 3, limit := 10 } ∧
      plan.pagination.prev = some { page := 1, limit := 10 } := by
  have hplan : getCalls exUser (pageQuery "2" "10") 30 = some
      { findFilter := .obj [("user".toList, .str exUser)]
        countFilter := .obj [("user".toList, .str exUser)]
        select := none
        sort := "-startTime".toList
        skip := 10
        limit := 10
        page := 2
        pagination := paginate 2 10 30 } := by decide
  have h := pagination_next_prev exUser (pageQuery "2" "10") 30 _ (Or.inl hplan)
    (by decide) (by decide) (by decide)
  exact ⟨_, hplan, by decide, by decide, rfl, h.2.2.1 (by decide), h.2.2.2.2.1 (by decide)⟩

theorem lookup_user_filter (userId : Str) (query : Query) (hid : isObjectId userId = true) :
    lookup "user".toList (markMembers (reqQuery userId query)) = some (QVal.str userId) := by
  have hk : markStr "user".toList = "user".toList := by decide
  have h := lookup_markMembers "user".toList (reqQuery userId query)
  rw [hk, lookup_reqQuery userId query _ (by decide) (by decide) (by decide) (by decide),
    lookup_setKey_self] at h
  rw [h, Option.map_some', markVal, markStr_clean userId (isObjectId_clean userId hid)]

/-- C3: for every caller (the `id` of a user document) and every request query, also one
that carries a `user` key of its own, the filter that `getCalls` / `getMessages` hand to
`find` and to `countDocuments` exists and has the top-level field `user` equal to the
caller's id. -/
theorem filter_user_is_caller (userId : Str) (query : Query) (total : Int)
    (hid : isObjectId userId = true) (hq : wf (QVal.obj query) = true) :
    (∃ members, queryFilter userId query = some (QVal.obj members) ∧
      lookup "user".toList members = some (QVal.str userId)) ∧
    ∀ plan, (getCalls userId query total = some plan ∨
        getMessages userId query total = some plan) →
      ∃ members, plan.findFilter = QVal.obj members ∧ plan.countFilter = QVal.obj members ∧
        lookup "user".toList members = some (QVal.str userId) := by
  have hf := queryFilter_wf userId query hq
  have hu := lookup_user_filter userId query hid
  refine ⟨⟨_, hf, hu⟩, ?_⟩
  intro plan hplan
  obtain ⟨srt, h⟩ := getCalls_or_getMessages hplan
  obtain ⟨h1, h2, _⟩ := listHandler_plan h
  rw [hf] at h1
  injection h1 with h1
  exact ⟨_, h1.symm, by rw [h2, ← h1], hu⟩

/-- C3, at a query that asks for the records of everybody but `x`. -/
theorem filter_user_is_caller_witness :
    isObjectId exUser = true ∧ wf (QVal.obj hostileQuery) = true ∧
    lookup "user".toList hostileQuery = some (.obj [("$ne".toList, .str "x".toList)]) ∧
    ∃ members, queryFilter exUser hostileQuery = some (QVal.obj members) ∧
      lookup "user".toList members = some (QVal.str exUser) :=
  ⟨by decide, by decide, by decide,
    (filter_user_is_caller exUser hostileQuery 0 (by decide) (by decide)).1⟩

/-- C4: for every request query whose field names and string values contain none of the
words gt, gte, lt, lte, in other than as keys of a nested object, the filter built by
`getCalls` / `getMessages` is the query with the top-level keys select, sort, page and limit
removed, every other key kept, each nested operator key renamed to its `$` form with its
value unchanged, and `user` set to the caller's id.  `duration[gte]=5` yields
`{duration: {$gte: "5"}, user: caller}`, which selects the records at 5 and 6 and not the
one at 4. -/
theorem filter_refines_spec (userId : Str) (query : Query)
    (hid : isObjectId userId = true) (hq : wf (QVal.obj query) = true)
    (hclean : cleanQuery query = true) :
    queryFilter userId query = some (specFilter userId query) ∧
    queryFilter exUser durationQuery = some durationFilter ∧
    selects durationFilter exUser 4 = false ∧
    selects durationFilter exUser 5 = true ∧
    selects durationFilter exUser 6 = true := by
  refine ⟨?_, by decide, by decide, by decide, by decide⟩
  rw [queryFilter_wf userId query hq,
    markMembers_cleanQuery _ (cleanQuery_reqQuery userId query hid hclean), reqQuery_renamed]

/-- C4, at `?duration[gte]=5&page=2&sort=-duration`. -/
theorem filter_refines_spec_witness :
    isObjectId exUser = true ∧
    wf (QVal.obj (durationQuery ++ [("page".toList, .str "2".toList),
      ("sort".toList, .str "-duration".toList)])) = true ∧
    cleanQuery (durationQuery ++ [("page".toList, .str "2".toList),
      ("sort".toList, .str "-duration".toList)]) = true ∧
    queryFilter exUser (durationQuery ++ [("page".toList, .str "2".toList),
      ("sort".toList, .str "-duration".toList)]) = some durationFilter :=
  ⟨by decide, by decide, by decide,
    (filter_refines_spec exUser _ (by decide) (by decide) (by decide)).1.trans (by decide)⟩

/-- C5 as stated fails: the string value `check in` of `notes` reaches the store as
`check $in`, and the top-level field name `in` as `$in`. -/
theorem rewriting_touches_values_counterexample :
    ∃ members, queryFilter exUser hostileQuery = some (QVal.obj members) ∧
      lookup "notes".toList hostileQuery = some (.str "check in".toList) ∧
      lookup "notes".toList members = some (.str "check $in".toList) ∧
      lookup "in".toList hostileQuery = some (.str "x".toList) ∧
      lookup "in".toList members = none ∧
      lookup "$in".toList members = some (.str "x".toList) :=
  ⟨[("user".toList, .str exUser), ("notes".toList, .str "check $in".toList),
      ("$in".toList, .str "x".toList)],
    by decide, by decide, by decide, by decide, by decide, by decide⟩

mutual
theorem agree_markVal : ∀ v : QVal, agree v (markVal v) = true
  | .str s => by
    rw [markVal, agree]
    cases h : hasOperatorWord s
    · rw [markStr_clean s h]; simp
    · rfl
  | .arr xs => by rw [markVal, agree, agreeElems_markElems xs]
  | .obj kvs => by rw [markVal, agree, agreeMembers_markMembers kvs]
theorem agreeElems_markElems : ∀ xs : List QVal, agreeElems xs (markElems xs) = true
  | [] => by rw [markElems, agreeElems]
  | v :: vs => by rw [markElems, agreeElems, agree_markVal v, agreeElems_markElems vs]; rfl
theorem agreeMembers_markMembers :
    ∀ kvs : List (Str × QVal), agreeMembers kvs (markMembers kvs) = true
  | [] => by rw [markMembers, agreeMembers]
  | (k, v) :: ps => by
    rw [markMembers, agreeMembers, agree_markVal v, agreeMembers_markMembers ps]
    cases h : hasOperatorWord k
    · rw [markStr_clean k h]; simp
    · rfl
end

/-- C5, amended: the rewriting is textual and prefixes `$` to every whole-word gt, gte, lt,
lte, in of the serialised query, in keys, field names and string values alike.  For every
request query the filter has the shape of the query (reserved keys removed, `user` set to
the caller), and every string value and every field name that contains none of these words
as a whole word is identical to the one the caller sent. -/
theorem rewriting_keeps_clean_strings (userId : Str) (query : Query)
    (hq : wf (QVal.obj query) = true) :
    ∃ filter, queryFilter userId query = some filter ∧
      agree (QVal.obj (reqQuery userId query)) filter = true ∧
      ∀ k s, lookup k (reqQuery userId query) = some (QVal.str s) →
        hasOperatorWord k = false → hasOperatorWord s = false →
        ∃ members, filter = QVal.obj members ∧ lookup k members = some (QVal.str s) := by
  refine ⟨_, queryFilter_wf userId query hq, ?_, ?_⟩
  · have := agree_markVal (QVal.obj (reqQuery userId query))
    rw [markVal] at this
    exact this
  · intro k s hl hk hs
    refine ⟨_, rfl, ?_⟩
    have h := lookup_markMembers k (reqQuery userId query)
    rw [markStr_clean k hk, hl, Option.map_some', markVal, markStr_clean s hs] at h
    exact h

/-- C5 amended, at a query with the value `5551234` for `phoneNumber`. -/
theorem rewriting_keeps_clean_strings_witness :
    wf (QVal.obj (("phoneNumber".toList, .str "5551234".toList) :: hostileQuery)) = true ∧
    ∃ filter, queryFilter exUser (("phoneNumber".toList, .str "5551234".toList) :: hostileQuery)
        = some filter ∧
      ∃ members, filter = QVal.obj members ∧
        lookup "phoneNumber".toList members = some (.str "5551234".toList) := by
  obtain ⟨filter, h1, _, h3⟩ := rewriting_keeps_clean_strings exUser
    (("phoneNumber".toList, .str "5551234".toList) :: hostileQuery) (by decide)
  exact ⟨by decide, filter, h1,
    h3 "phoneNumber".toList "5551234".toList (by decide) (by decide) (by decide)⟩

/-! ## The store interface -/

theorem findOne_fst (env : Env) (S : Schema) (w : World) (key : Str) (value : Option Json) :
    (findOne env S w key value).1 = w.record (.findOne key value) := by
  unfold findOne
  simp only []
  split
  · rfl
  · split <;> rfl

theorem updateFirst_ids (id : Nat) (f : List (Str × Json) → List (Str × Json)) :
    ∀ docs : List Doc, (updateFirst id f docs).map Doc._id = docs.map Doc._id
  | [] => rfl
  | d :: ds => by
    by_cases h : d._id = id
    · rw [updateFirst, if_pos h]; rfl
    · rw [updateFirst, if_neg h, List.map_cons, List.map_cons, updateFirst_ids id f ds]

/-- An update either throws and leaves the collection as it is, or keeps the documents'
ids. -/
theorem findByIdAndUpdate_cases (env : Env) (S : Schema) (w : World) (id : Nat)
    (update : Payload) :
    ((findByIdAndUpdate env S w id update).2 = none ∧
      (findByIdAndUpdate env S w id update).1 = w.record (.findByIdAndUpdate id update)) ∨
    ((findByIdAndUpdate env S w id update).2 ≠ none ∧
      (findByIdAndUpdate env S w id update).1 =
        { store := { docs := updateFirst id (updateFields S update) w.store.docs,
                     nextId := w.store.nextId },
          log := w.log ++ [.findByIdAndUpdate id update] }) := by
  unfold findByIdAndUpdate
  simp only []
  split
  · exact Or.inl ⟨rfl, rfl⟩
  · split
    · exact Or.inl ⟨rfl, rfl⟩
    · exact Or.inr ⟨by simp, rfl⟩

/-- A creation either throws and leaves the collection as it is, or appends the new
document. -/
theorem create_cases (env : Env) (S : Schema) (w : World) (obj : Payload) :
    ((create env S w obj).2 = none ∧ (create env S w obj).1 = w.record (.create obj)) ∨
    ((create env S w obj).2
        = some { _id := w.store.nextId, fields := newDocFields S env.now obj } ∧
      (create env S w obj).1 =
        { store := { docs := w.store.docs ++
              [{ _id := w.store.nextId, fields := newDocFields S env.now obj }],
                     nextId := w.store.nextId + 1 },
          log := w.log ++ [.create obj] }) := by
  unfold create
  simp only []
  split
  · exact Or.inl ⟨rfl, rfl⟩
  · split
    · exact Or.inl ⟨rfl, rfl⟩
    · exact Or.inr ⟨rfl, rfl⟩

/-- What one iteration of the sync loop does to the collection and to the call record. -/
theorem syncStep_cases (env : Env) (S : Schema) (userId : Str) (w : World) (call : Payload) :
    ((syncStep env S userId w call).2 = .threw ∧
      (syncStep env S userId w call).1.store = w.store ∧
      ∃ ops, (syncStep env S userId w call).1.log = w.log ++ ops ∧
        1 ≤ ops.length ∧ ops.length ≤ 2) ∨
    ((syncStep env S userId w call).2 = .updated ∧
      (∃ id, (syncStep env S userId w call).1.store
          = { docs := updateFirst id (updateFields S call) w.store.docs,
              nextId := w.store.nextId }) ∧
      ∃ ops, (syncStep env S userId w call).1.log = w.log ++ ops ∧ ops.length = 2) ∨
    ((syncStep env S userId w call).2 = .added ∧
      (syncStep env S userId w call).1.store
        = { docs := w.store.docs ++
              [Doc.mk w.store.nextId (newDocFields S env.now (ownedPayload userId call))],
            nextId := w.store.nextId + 1 } ∧
      ∃ ops, (syncStep env S userId w call).1.log = w.log ++ ops ∧ ops.length = 2) := by
  unfold syncStep
  have h1 := findOne_fst env S w "id".toList (lookup "id".toList call)
  rcases hf : findOne env S w "id".toList (lookup "id".toList call) with ⟨w1, r⟩
  rw [hf] at h1
  simp only at h1
  subst h1
  rcases r with _ | _ | existing
  · exact Or.inl ⟨rfl, rfl, [_], rfl, by simp, by simp⟩
  · -- not found
    simp only []
    rcases create_cases env S (w.record (.findOne "id".toList (lookup "id".toList call)))
      (setKey "user".toList (Json.ofStr userId) call) with ⟨h2, h3⟩ | ⟨h2, h3⟩
    · rcases hc : create env S (w.record (.findOne "id".toList (lookup "id".toList call)))
        (setKey "user".toList (Json.ofStr userId) call) with ⟨w2, r2⟩
      rw [hc] at h2 h3
      simp only at h2 h3
      subst h2 h3
      exact Or.inl ⟨rfl, rfl, [.findOne "id".toList (lookup "id".toList call),
        .create (setKey "user".toList (Json.ofStr userId) call)],
        by simp [World.record], by simp, by simp⟩
    · rcases hc : create env S (w.record (.findOne "id".toList (lookup "id".toList call)))
        (setKey "user".toList (Json.ofStr userId) call) with ⟨w2, r2⟩
      rw [hc] at h2 h3
      simp only at h2 h3
      subst h2 h3
      exact Or.inr (Or.inr ⟨rfl, rfl, [.findOne "id".toList (lookup "id".toList call),
        .create (setKey "user".toList (Json.ofStr userId) call)],
        by simp [World.record], by simp⟩)
  · -- found
    simp only []
    rcases findByIdAndUpdate_cases env S
      (w.record (.findOne "id".toList (lookup "id".toList call))) existing._id call
      with ⟨h2, h3⟩ | ⟨h2, h3⟩
    · rcases hc : findByIdAndUpdate env S
        (w.record (.findOne "id".toList (lookup "id".toList call))) existing._id call
        with ⟨w2, r2⟩
      rw [hc] at h2 h3
      simp only at h2 h3
      subst h2 h3
      exact Or.inl ⟨rfl, rfl, [.findOne "id".toList (lookup "id".toList call),
        .findByIdAndUpdate existing._id call], by simp [World.record], by simp, by simp⟩
    · rcases hc : findByIdAndUpdate env S
        (w.record (.findOne "id".toList (lookup "id".toList call))) existing._id call
        with ⟨w2, r2⟩
      rw [hc] at h2 h3
      simp only at h2 h3
      subst h3
      cases r2 with
      | none => exact absurd rfl h2
      | some r3 =>
        exact Or.inr (Or.inl ⟨rfl, ⟨existing._id, rfl⟩,
          [.findOne "id".toList (lookup "id".toList call),
            .findByIdAndUpdate existing._id call], by simp [World.record], by simp⟩)

/-! ## The sync loop -/

theorem syncLoop_append (env : Env) (S : Schema) (userId : Str) (rest : List Payload) :
    ∀ (pre : List Payload) (w : World) (a u : Nat),
      syncLoop env S userId (pre ++ rest) w a u =
        match syncLoop env S userId pre w a u with
        | (w1, some (a1, u1)) => syncLoop env S userId rest w1 a1 u1
        | (w1, none) => (w1, none) := by
  intro pre
  induction pre with
  | nil => intro w a u; rfl
  | cons call pre ih =>
    intro w a u
    rw [List.cons_append, syncLoop, syncLoop]
    rcases syncStep env S userId w call with ⟨w1, o⟩
    cases o with
    | threw => rfl
    | updated => exact ih w1 a (u + 1)
    | added => exact ih w1 (a + 1) u

/-- The counters and the collection after a loop that ran to its end. -/
theorem syncLoop_counts (env : Env) (S : Schema) (userId : Str) :
    ∀ (batch : List Payload) (w : World) (a u : Nat) (w' : World) (a' u' : Nat),
      syncLoop env S userId batch w a u = (w', some (a', u')) →
      a' + u' = a + u + batch.length ∧ a ≤ a' ∧
      w'.store.docs.length = w.store.docs.length + (a' - a) ∧
      (w.store.docs.map Doc._id) <+: (w'.store.docs.map Doc._id) := by
  intro batch
  induction batch with
  | nil =>
    intro w a u w' a' u' h
    rw [syncLoop] at h
    injection h with h1 h2
    injection h2 with h2
    injection h2 with h2 h3
    subst h1 h2 h3
    exact ⟨by simp, Nat.le_refl _, by simp, List.prefix_refl _⟩
  | cons call rest ih =>
    intro w a u w' a' u' h
    rw [syncLoop] at h
    have hc := syncStep_cases env S userId w call
    rcases hs : syncStep env S userId w call with ⟨w1, o⟩
    rw [hs] at h hc
    simp only at hc
    rcases hc with ⟨ho, _⟩ | ⟨ho, ⟨id, hst⟩, _⟩ | ⟨ho, hst, _⟩
    · subst ho; simp only at h; cases h
    · subst ho
      simp only at h
      obtain ⟨h1, h2, h3, h4⟩ := ih w1 a (u + 1) w' a' u' h
      have hids : w1.store.docs.map Doc._id = w.store.docs.map Doc._id := by
        rw [hst]; exact updateFirst_ids _ _ _
      have hlen : w1.store.docs.length = w.store.docs.length := by
        have := congrArg List.length hids
        simpa using this
      refine ⟨by simp only [List.length_cons]; omega, h2, by omega, ?_⟩
      rw [← hids]; exact h4
    · subst ho
      simp only at h
      obtain ⟨h1, h2, h3, h4⟩ := ih w1 (a + 1) u w' a' u' h
      have hlen : w1.store.docs.length = w.store.docs.length + 1 := by rw [hst]; simp
      refine ⟨by simp only [List.length_cons]; omega, by omega, by omega, ?_⟩
      refine List.IsPrefix.trans ?_ h4
      rw [hst]
      simp

theorem syncRecords_success {env : Env} {S : Schema} {userId : Str} {batch : List Payload}
    {w w' : World} {status : Nat} {results : SyncResults}
    (h : syncRecords env S userId batch w = (w', .success status results)) :
    status = 200 ∧ results.total = batch.length ∧
    syncLoop env S userId batch w 0 0 = (w', some (results.added, results.updated)) := by
  unfold syncRecords at h
  rcases hl : syncLoop env S userId batch w 0 0 with ⟨w1, r⟩
  rw [hl] at h
  rcases r with _ | ⟨a, u⟩
  · simp only at h; injection h with _ h2; cases h2
  · simp only at h
    injection h with h1 h2
    injection h2 with h2 h3
    subst h1 h2 h3
    exact ⟨rfl, rfl, rfl⟩

theorem syncRecords_fst (env : Env) (S : Schema) (userId : Str) (batch : List Payload)
    (w : World) : (syncRecords env S userId batch w).1 = (syncLoop env S userId batch w 0 0).1 := by
  unfold syncRecords
  rcases syncLoop env S userId batch w 0 0 with ⟨w1, _ | ⟨a, u⟩⟩ <;> rfl

theorem syncRecords_snd (env : Env) (S : Schema) (userId : Str) (batch : List Payload)
    (w : World) :
    ((syncLoop env S userId batch w 0 0).2 = none ∧
      (syncRecords env S userId batch w).2 = .failure 500 "Server Error".toList) ∨
    (∃ a u, (syncLoop env S userId batch w 0 0).2 = some (a, u) ∧
      (syncRecords env S userId batch w).2
        = .success 200 { added := a, updated := u, total := batch.length }) := by
  unfold syncRecords
  rcases syncLoop env S userId batch w 0 0 with ⟨w1, _ | ⟨a, u⟩⟩
  · exact Or.inl ⟨rfl, rfl⟩
  · exact Or.inr ⟨a, u, rfl, rfl⟩

theorem syncLoop_abort (env : Env) (S : Schema) (userId : Str) (pre : List Payload)
    (bad : Payload) (post : List Payload) (w : World)
    (hpre : (syncLoop env S userId pre w 0 0).2 ≠ none)
    (hbad : (syncLoop env S userId (pre ++ [bad]) w 0 0).2 = none) :
    syncLoop env S userId (pre ++ bad :: post) w 0 0
      = ((syncLoop env S userId (pre ++ [bad]) w 0 0).1, none) ∧
    (syncLoop env S userId (pre ++ [bad]) w 0 0).1.store
      = (syncLoop env S userId pre w 0 0).1.store ∧
    ∃ ops, (syncLoop env S userId (pre ++ [bad]) w 0 0).1.log
        = (syncLoop env S userId pre w 0 0).1.log ++ ops ∧ 1 ≤ ops.length ∧ ops.length ≤ 2 := by
  have e1 := syncLoop_append env S userId [bad] pre w 0 0
  have e2 := syncLoop_append env S userId (bad :: post) pre w 0 0
  rcases hl : syncLoop env S userId pre w 0 0 with ⟨w1, res⟩
  rw [hl] at e1 e2 hpre
  rcases res with _ | ⟨a, u⟩
  · exact absurd rfl hpre
  · simp only at e1 e2
    rw [e1] at hbad ⊢
    rw [e2]
    rw [syncLoop] at hbad ⊢
    rw [syncLoop]
    have hc := syncStep_cases env S userId w1 bad
    rcases hs : syncStep env S userId w1 bad with ⟨w2, o⟩
    rw [hs] at hbad hc
    simp only at hc
    rcases hc with ⟨ho, hst, hlog⟩ | ⟨ho, _⟩ | ⟨ho, _⟩
    · subst ho
      exact ⟨rfl, hst, hlog⟩
    · subst ho
      simp only [syncLoop] at hbad
      cases hbad
    · subst ho
      simp only [syncLoop] at hbad
      cases hbad

/-- The handler stops at the first iteration that throws. -/
theorem syncRecords_abort (env : Env) (S : Schema) (userId : Str) (pre : List Payload)
    (bad : Payload) (post : List Payload) (w : World)
    (hpre : ∃ r, (syncRecords env S userId pre w).2 = .success 200 r)
    (hbad : (syncRecords env S userId (pre ++ [bad]) w).2 = .failure 500 "Server Error".toList) :
    syncRecords env S userId (pre ++ bad :: post) w
      = ((syncRecords env S userId (pre ++ [bad]) w).1, .failure 500 "Server Error".toList) ∧
    (syncRecords env S userId (pre ++ [bad]) w).1.store
      = (syncRecords env S userId pre w).1.store ∧
    ∃ ops, (syncRecords env S userId (pre ++ [bad]) w).1.log
        = (syncRecords env S userId pre w).1.log ++ ops ∧ 1 ≤ ops.length ∧ ops.length ≤ 2 := by
  obtain ⟨r, hpre⟩ := hpre
  have h1 : (syncLoop env S userId pre w 0 0).2 ≠ none := by
    rcases syncRecords_snd env S userId pre w with ⟨_, h⟩ | ⟨a, u, h, _⟩
    · rw [h] at hpre; cases hpre
    · rw [h]; simp
  have h2 : (syncLoop env S userId (pre ++ [bad]) w 0 0).2 = none := by
    rcases syncRecords_snd env S userId (pre ++ [bad]) w with ⟨h, _⟩ | ⟨a, u, _, h⟩
    · exact h
    · rw [h] at hbad; cases hbad
  obtain ⟨h3, h4, h5⟩ := syncLoop_abort env S userId pre bad post w h1 h2
  rw [syncRecords_fst, syncRecords_fst]
  refine ⟨?_, h4, h5⟩
  unfold syncRecords
  rw [h3]

/-! ## The external id is not stored -/

theorem lookup_eq_none_of_not_mem {α : Type} (k : Str) :
    ∀ o : List (Str × α), k ∉ keys o → lookup k o = none
  | [], _ => rfl
  | (k', v') :: t, h => by
    rw [keys_cons, List.mem_cons, not_or] at h
    rw [lookup, if_neg (Ne.symm h.1), lookup_eq_none_of_not_mem k t h.2]

theorem keys_newDocFields (S : Schema) (now : Int) (obj : Payload) :
    ∀ k ∈ keys (newDocFields S now obj), k ∈ S.paths := by
  intro k hk
  simp only [keys, newDocFields, List.mem_map, List.mem_filterMap] at hk
  obtain ⟨⟨k', v⟩, ⟨p, hp, hpv⟩, rfl⟩ := hk
  simp only [Schema.paths, List.mem_map]
  refine ⟨p, hp, ?_⟩
  cases hl : lookup p.name obj with
  | some x => rw [hl] at hpv; simp only [Option.some.injEq, Prod.mk.injEq] at hpv; exact hpv.1
  | none =>
    rw [hl] at hpv
    simp only [Option.map_eq_some'] at hpv
    obtain ⟨d, _, hd⟩ := hpv
    simp only [Prod.mk.injEq] at hd
    exact hd.1

/-- A created document has no field `id`: neither schema declares the path. -/
theorem newDocFields_no_id (S : Schema) (hS : S = CallSchema ∨ S = MessageSchema) (now : Int)
    (obj : Payload) : lookup "id".toList (newDocFields S now obj) = none := by
  apply lookup_eq_none_of_not_mem
  intro h
  have := keys_newDocFields S now obj _ h
  rcases hS with hS | hS <;> subst hS <;> revert this <;> decide

theorem findOne_no_fault (env : Env) (S : Schema) (w : World) (key : Str)
    (value : Option Json) (hq : env.strictQuery = false) (hf : ∀ n, env.fault n = false) :
    findOne env S w key value
      = (w.record (.findOne key value), some (w.store.docs.find? (fieldMatches key value))) := by
  unfold findOne
  simp only [hf, hq, Bool.false_and, Bool.false_eq_true, if_false]

theorem create_valid (env : Env) (S : Schema) (w : World) (obj : Payload)
    (hf : ∀ n, env.fault n = false) (hv : validateDoc S (newDocFields S env.now obj) = true) :
    create env S w obj
      = ({ store := { docs := w.store.docs ++ [Doc.mk w.store.nextId (newDocFields S env.now obj)],
                      nextId := w.store.nextId + 1 },
           log := w.log ++ [.create obj] },
         some (Doc.mk w.store.nextId (newDocFields S env.now obj))) := by
  unfold create
  simp only [hf, hv, Bool.false_eq_true, if_false, Bool.not_true]
  rfl

/-- Without store faults and with filters passed on as written, a sync on a store whose
documents carry no field `id` takes the not-found branch for every valid record that has
an id: every record is added, none is updated, and the documents still carry no `id`. -/
theorem sync_always_adds (S : Schema) (hS : S = CallSchema ∨ S = MessageSchema) (env : Env)
    (hq : env.strictQuery = false) (hf : ∀ n, env.fault n = false) (userId : Str) :
    ∀ (batch : List Payload) (w : World) (a u : Nat),
      (∀ d ∈ w.store.docs, lookup "id".toList d.fields = none) →
      (∀ r ∈ batch, validRecord S userId env.now r = true ∧
        ∃ v, lookup "id".toList r = some v ∧ v ≠ Json.lit Scalar.null) →
      ∃ w', syncLoop env S userId batch w a u = (w', some (a + batch.length, u)) ∧
        (∀ d ∈ w'.store.docs, lookup "id".toList d.fields = none) ∧
        w'.store.docs.length = w.store.docs.length + batch.length := by
  intro batch
  induction batch with
  | nil => intro w a u hw _; exact ⟨w, rfl, hw, rfl⟩
  | cons r rest ih =>
    intro w a u hw hb
    obtain ⟨hv, v, hid, hnn⟩ := hb r (List.mem_cons_self _ _)
    have hfind : w.store.docs.find? (fieldMatches "id".toList (some v)) = none := by
      rw [List.find?_eq_none]
      intro d hd
      simp only [fieldMatches, hw d hd, beq_iff_eq, hnn, not_false_eq_true]
    have hvd : validateDoc S (newDocFields S env.now (ownedPayload userId r)) = true := by
      simp only [validRecord, Bool.and_eq_true] at hv
      exact hv.1
    obtain ⟨w1, hdocs, hstep⟩ : ∃ w1 : World,
        w1.store.docs = w.store.docs ++ [Doc.mk w.store.nextId
          (newDocFields S env.now (ownedPayload userId r))] ∧
        syncStep env S userId w r = (w1, .added) := by
      refine ⟨World.mk (Store.mk (w.store.docs ++ [Doc.mk w.store.nextId
          (newDocFields S env.now (ownedPayload userId r))]) (w.store.nextId + 1))
        (w.log ++ [.findOne "id".toList (some v)] ++ [.create (ownedPayload userId r)]),
        rfl, ?_⟩
      unfold syncStep
      rw [findOne_no_fault env S w _ _ hq hf, hid, hfind]
      simp only
      have hc := create_valid env S (w.record (.findOne "id".toList (some v)))
        (ownedPayload userId r) hf hvd
      rw [ownedPayload] at hc
      rw [hc]
      rfl
    rw [syncLoop, hstep]
    obtain ⟨w', h1, h2, h3⟩ := ih w1 (a + 1) u (by
        intro d hd
        rw [hdocs] at hd
        rcases List.mem_append.mp hd with hd | hd
        · exact hw d hd
        · rw [List.mem_singleton.mp hd]; exact newDocFields_no_id S hS _ _)
      (fun r' hr' => hb r' (List.mem_cons_of_mem _ hr'))
    refine ⟨w', ?_, h2, ?_⟩
    · show syncLoop env S userId rest w1 (a + 1) u = _
      rw [h1]; simp only [List.length_cons]; congr 3; omega
    · rw [h3, hdocs]; simp only [List.length_append, List.length_cons, List.length_nil]; omega

/-! ## Synchronisation: counts (C8), owner of created records (C9), abort (C10) -/

/-- C6 fails on the code: the schemas declare no path `id`, so a created record does not
keep the external id and the lookup `findOne({ id })` of a later run cannot find it.
For a batch of two valid calls (or messages) with distinct ids on an empty store: when the
filter is passed on as written, both runs answer `{added: 2, updated: 0, total: 2}` and
the second run leaves four records; when unknown filter paths are stripped, already the
first run answers `{added: 1, updated: 1, total: 2}`.  In general (`sync_always_adds`) the
update branch is never taken for a record with an id when the filter is passed on as
written. -/
theorem sync_twice_evaluated :
    validRecord CallSchema exUser 0 (exCall "c1" "5551111" "missed") = true ∧
    validRecord CallSchema exUser 0 (exCall "c2" "5552222" "answered") = true ∧
    (syncCalls (exEnv false) exUser
      [exCall "c1" "5551111" "missed", exCall "c2" "5552222" "answered"] emptyWorld).2
      = .success 200 { added := 2, updated := 0, total := 2 } ∧
    (syncCalls (exEnv false) exUser
      [exCall "c1" "5551111" "missed", exCall "c2" "5552222" "answered"]
      (syncCalls (exEnv false) exUser
        [exCall "c1" "5551111" "missed", exCall "c2" "5552222" "answered"] emptyWorld).1).2
      = .success 200 { added := 2, updated := 0, total := 2 } ∧
    (syncCalls (exEnv false) exUser
      [exCall "c1" "5551111" "missed", exCall "c2" "5552222" "answered"]
      (syncCalls (exEnv false) exUser
        [exCall "c1" "5551111" "missed", exCall "c2" "5552222" "answered"]
        emptyWorld).1).1.store.docs.length = 4 ∧
    (syncCalls (exEnv true) exUser
      [exCall "c1" "5551111" "missed", exCall "c2" "5552222" "answered"] emptyWorld).2
      = .success 200 { added := 1, updated := 1, total := 2 } ∧
    (syncMessages (exEnv false) exUser
      [exMessage "m1" "5551111" "hi", exMessage "m2" "5552222" "bye"]
      (syncMessages (exEnv false) exUser
        [exMessage "m1" "5551111" "hi", exMessage "m2" "5552222" "bye"] emptyWorld).1).2
      = .success 200 { added := 2, updated := 0, total := 2 } ∧
    (syncMessages (exEnv true) exUser
      [exMessage "m1" "5551111" "hi", exMessage "m2" "5552222" "bye"] emptyWorld).2
      = .success 200 { added := 1, updated := 1, total := 2 } := by
  refine ⟨?_, ?_, ?_, ?_, ?_, ?_, ?_, ?_⟩ <;> decide

/-- C7 fails on the code, by the defect of C6: for a batch of two valid calls that share
the id `c1`, on a store that holds one call of another user, the handler answers
`{added: 2, updated: 0}` and creates two records when the filter is passed on as written,
and answers `{added: 0, updated: 2}`, creating nothing and overwriting the other user's
call, when unknown filter paths are stripped. -/
theorem sync_duplicate_evaluated :
    validRecord CallSchema exUser 0 (exCall "c1" "5551111" "missed") = true ∧
    validRecord CallSchema exUser 0 (exCall "c1" "5551111" "answered") = true ∧
    otherWorld.store.docs.all
      (fun d => !fieldMatches "id".toList (some (Json.ofStr "c1".toList)) d) = true ∧
    (syncCalls (exEnv false) exUser
      [exCall "c1" "5551111" "missed", exCall "c1" "5551111" "answered"] otherWorld).2
      = .success 200 { added := 2, updated := 0, total := 2 } ∧
    (syncCalls (exEnv false) exUser
      [exCall "c1" "5551111" "missed", exCall "c1" "5551111" "answered"]
      otherWorld).1.store.docs.length = otherWorld.store.docs.length + 2 ∧
    (syncCalls (exEnv true) exUser
      [exCall "c1" "5551111" "missed", exCall "c1" "5551111" "answered"] otherWorld).2
      = .success 200 { added := 0, updated := 2, total := 2 } ∧
    (syncCalls (exEnv true) exUser
      [exCall "c1" "5551111" "missed", exCall "c1" "5551111" "answered"]
      otherWorld).1.store.docs.map (fun d => (lookup "user".toList d.fields,
        lookup "status".toList d.fields))
      = [(some (Json.ofStr otherUser), some (Json.ofStr "answered".toList))] ∧
    (syncMessages (exEnv false) exUser
      [exMessage "m1" "5551111" "hi", exMessage "m1" "5551111" "hi again"]
      otherMessageWorld).2
      = .success 200 { added := 2, updated := 0, total := 2 } ∧
    (syncMessages (exEnv true) exUser
      [exMessage "m1" "5551111" "hi", exMessage "m1" "5551111" "hi again"]
      otherMessageWorld).2
      = .success 200 { added := 0, updated := 2, total := 2 } := by
  refine ⟨?_, ?_, ?_, ?_, ?_, ?_, ?_, ?_, ?_⟩ <;> decide

/-- C8: for every batch on which `syncCalls` / `syncMessages` completes without a
per-record failure, the answer has `total` equal to the length of the batch and
`added + updated = total`, the store holds exactly `added` more records than before, and
every record that was there before is still there. -/
theorem sync_result_counts
    (sync : Env → Str → List Payload → World → World × Reply SyncResults)
    (hsync : sync = syncCalls ∨ sync = syncMessages)
    (env : Env) (userId : Str) (batch : List Payload) (w w' : World) (status : Nat)
    (results : SyncResults)
    (h : sync env userId batch w = (w', .success status results)) :
    status = 200 ∧ results.total = batch.length ∧
    results.added + results.updated = results.total ∧
    w'.store.docs.length = w.store.docs.length + results.added ∧
    (w.store.docs.map Doc._id) <+: (w'.store.docs.map Doc._id) := by
  have key : ∀ S, syncRecords env S userId batch w = (w', .success status results) →
      status = 200 ∧ results.total = batch.length ∧
      results.added + results.updated = results.total ∧
      w'.store.docs.length = w.store.docs.length + results.added ∧
      (w.store.docs.map Doc._id) <+: (w'.store.docs.map Doc._id) := by
    intro S hS
    obtain ⟨h1, h2, h3⟩ := syncRecords_success hS
    obtain ⟨h4, _, h6, h7⟩ := syncLoop_counts env S userId batch w 0 0 w' _ _ h3
    exact ⟨h1, h2, by omega, by omega, h7⟩
  rcases hsync with hs | hs <;> subst hs
  · exact key CallSchema h
  · exact key MessageSchema h

/-- C8, at a batch of two calls on a store that holds another user's call. -/
theorem sync_result_counts_witness :
    ∃ w', syncCalls (exEnv false) exUser
        [exCall "c1" "5551111" "missed", exCall "c2" "5552222" "answered"] otherWorld
        = (w', .success 200 { added := 2, updated := 0, total := 2 }) ∧
      w'.store.docs.length = otherWorld.store.docs.length + 2 := by
  have h : syncCalls (exEnv false) exUser
      [exCall "c1" "5551111" "missed", exCall "c2" "5552222" "answered"] otherWorld
      = ((syncCalls (exEnv false) exUser
          [exCall "c1" "5551111" "missed", exCall "c2" "5552222" "answered"] otherWorld).1,
        .success 200 { added := 2, updated := 0, total := 2 }) :=
    Prod.ext rfl (by decide)
  exact ⟨_, h, (sync_result_counts syncCalls (Or.inl rfl) _ _ _ _ _ _ _ h).2.2.2.1⟩

/-- C10: when the k-th record of a batch is the first whose lookup, validation or write
fails (the records before it are synced without failure, the batch up to it is not),
`syncCalls` / `syncMessages` answers 500 `{success: false, error: 'Server Error'}` without
counts, the store is the store the records before the k-th leave when synced alone, and
nothing is looked up or written for a later record: the collection and the record of model
calls are those of the batch cut behind the k-th record, which asks at most two calls more
than the records before it. -/
theorem sync_aborts_at_first_failure
    (sync : Env → Str → List Payload → World → World × Reply SyncResults)
    (hsync : sync = syncCalls ∨ sync = syncMessages)
    (env : Env) (userId : Str) (pre : List Payload) (bad : Payload) (post : List Payload)
    (w : World)
    (hpre : ∃ r, (sync env userId pre w).2 = .success 200 r)
    (hbad : (sync env userId (pre ++ [bad]) w).2 = .failure 500 "Server Error".toList) :
    sync env userId (pre ++ bad :: post) w
      = ((sync env userId (pre ++ [bad]) w).1, .failure 500 "Server Error".toList) ∧
    (sync env userId (pre ++ bad :: post) w).1.store = (sync env userId pre w).1.store ∧
    ∃ ops, (sync env userId (pre ++ bad :: post) w).1.log
        = (sync env userId pre w).1.log ++ ops ∧ 1 ≤ ops.length ∧ ops.length ≤ 2 := by
  have key : ∀ S, (∃ r, (syncRecords env S userId pre w).2 = .success 200 r) →
      (syncRecords env S userId (pre ++ [bad]) w).2 = .failure 500 "Server Error".toList →
      syncRecords env S userId (pre ++ bad :: post) w
        = ((syncRecords env S userId (pre ++ [bad]) w).1, .failure 500 "Server Error".toList) ∧
      (syncRecords env S userId (pre ++ bad :: post) w).1.store
        = (syncRecords env S userId pre w).1.store ∧
      ∃ ops, (syncRecords env S userId (pre ++ bad :: post) w).1.log
          = (syncRecords env S userId pre w).1.log ++ ops ∧ 1 ≤ ops.length ∧ ops.length ≤ 2 := by
    intro S h1 h2
    obtain ⟨h3, h4, h5⟩ := syncRecords_abort env S userId pre bad post w h1 h2
    rw [h3]
    exact ⟨rfl, h4, h5⟩
  rcases hsync with hs | hs <;> subst hs
  · exact key CallSchema hpre hbad
  · exact key MessageSchema hpre hbad

/-- C10, at a batch whose second record lacks the required fields. -/
theorem sync_aborts_at_first_failure_witness :
    (syncCalls (exEnv false) exUser [exCall "c1" "5551111" "missed"] emptyWorld).2
      = .success 200 { added := 1, updated := 0, total := 1 } ∧
    (syncCalls (exEnv false) exUser
      ([exCall "c1" "5551111" "missed"] ++ [[("id".toList, Json.ofStr "c2".toList)]])
      emptyWorld).2 = .failure 500 "Server Error".toList ∧
    (syncCalls (exEnv false) exUser
      ([exCall "c1" "5551111" "missed"] ++ [("id".toList, Json.ofStr "c2".toList)] ::
        [exCall "c3" "5553333" "answered"]) emptyWorld).2
      = .failure 500 "Server Error".toList ∧
    (syncCalls (exEnv false) exUser
      ([exCall "c1" "5551111" "missed"] ++ [("id".toList, Json.ofStr "c2".toList)] ::
        [exCall "c3" "5553333" "answered"]) emptyWorld).1.store
      = (syncCalls (exEnv false) exUser [exCall "c1" "5551111" "missed"] emptyWorld).1.store := by
  have h := sync_aborts_at_first_failure syncCalls (Or.inl rfl) (exEnv false) exUser
    [exCall "c1" "5551111" "missed"] [("id".toList, Json.ofStr "c2".toList)]
    [exCall "c3" "5553333" "answered"] emptyWorld
    ⟨{ added := 1, updated := 0, total := 1 }, by decide⟩ (by decide)
  exact ⟨by decide, by decide, by rw [h.1], h.2.1⟩

/-! ## The rewriting never breaks the JSON text (C16) -/

theorem withoutDollar_markRaw (s : Str) : ∀ b : Option Char,
    withoutDollar (markRaw b s) = withoutDollar s := by
  induction s with
  | nil => intro _; rfl
  | cons c cs ih =>
    intro b
    rw [markRaw_cons]
    split
    · show withoutDollar ('$' :: c :: markRaw _ cs) = withoutDollar (c :: cs)
      simp only [withoutDollar, List.filter_cons, bne_self_eq_false, Bool.false_eq_true,
        if_false]
      have := ih (escapeChar c).getLast?
      simp only [withoutDollar] at this
      rw [this]
    · show withoutDollar (c :: markRaw _ cs) = withoutDollar (c :: cs)
      simp only [withoutDollar, List.filter_cons]
      have := ih (escapeChar c).getLast?
      simp only [withoutDollar] at this
      rw [this]

mutual
theorem sameShape_markVal : ∀ v : QVal, sameShape v (markVal v) = true
  | .str s => by
    rw [markVal, sameShape, markStr, withoutDollar_markRaw]
    simp
  | .arr xs => by rw [markVal, sameShape, sameShapeElems_markElems xs]
  | .obj kvs => by rw [markVal, sameShape, sameShapeMembers_markMembers kvs]
theorem sameShapeElems_markElems : ∀ xs : List QVal, sameShapeElems xs (markElems xs) = true
  | [] => by rw [markElems, sameShapeElems]
  | v :: vs => by
    rw [markElems, sameShapeElems, sameShape_markVal v, sameShapeElems_markElems vs]; rfl
theorem sameShapeMembers_markMembers :
    ∀ kvs : List (Str × QVal), sameShapeMembers kvs (markMembers kvs) = true
  | [] => by rw [markMembers, sameShapeMembers]
  | (k, v) :: ps => by
    rw [markMembers, sameShapeMembers, sameShape_markVal v, sameShapeMembers_markMembers ps,
      markStr, withoutDollar_markRaw]
    simp
end

/-- C16: the textual operator rewriting never produces malformed JSON.  For every query
value, inserting `$` before each whole-word gt, gte, lt, lte, in of `JSON.stringify` gives a
text that `JSON.parse` accepts; for a value whose objects have no repeated key the parsed
value has the shape of the original (same nesting, same number of keys in every object,
same array lengths) and differs from it by `$` characters inside key names and string
values only.  The same holds of the filter of `getCalls` / `getMessages`. -/
theorem rewriting_yields_valid_json (v : QVal) (userId : Str) (query : Query)
    (hv : wf v = true) (hq : wf (QVal.obj query) = true) :
    (∀ u : QVal, ∃ parsed, jsonParse (replaceOperators (stringify u)) = some parsed) ∧
    (∃ parsed, jsonParse (replaceOperators (stringify v)) = some parsed ∧
      sameShape v parsed = true ∧ wf parsed = true) ∧
    (∃ filter, queryFilter userId query = some filter ∧
      sameShape (QVal.obj (reqQuery userId query)) filter = true) := by
  refine ⟨?_, ?_, ?_⟩
  · intro u
    exact ⟨_, by rw [replaceOperators_stringify, jsonParse_stringify]⟩
  · refine ⟨markVal v, ?_, sameShape_markVal v, wf_markVal v hv⟩
    rw [replaceOperators_stringify, jsonParse_stringify, normalize_wf _ (wf_markVal v hv)]
  · refine ⟨_, queryFilter_wf userId query hq, ?_⟩
    have := sameShape_markVal (QVal.obj (reqQuery userId query))
    rw [markVal] at this
    exact this

/-- C16, at a query whose keys and values are full of operator words, quotes and
backslashes. -/
theorem rewriting_yields_valid_json_witness :
    wf (QVal.obj [("in".toList, .arr [.str "gt\\lt".toList, .str "\"in\"".toList]),
      ("a in b".toList, .obj [("lte".toList, .str "in\n".toList)])]) = true ∧
    wf (QVal.obj hostileQuery) = true ∧
    jsonParse (replaceOperators (stringify
      (QVal.obj [("in".toList, .arr [.str "gt\\lt".toList, .str "\"in\"".toList]),
        ("a in b".toList, .obj [("lte".toList, .str "in\n".toList)])])))
      = some (QVal.obj [("$in".toList, .arr [.str "$gt\\$lt".toList, .str "\"$in\"".toList]),
        ("a $in b".toList, .obj [("$lte".toList, .str "$in\n".toList)])]) ∧
    ∃ parsed, jsonParse (replaceOperators (stringify
      (QVal.obj [("in".toList, .arr [.str "gt\\lt".toList, .str "\"in\"".toList]),
        ("a in b".toList, .obj [("lte".toList, .str "in\n".toList)])]))) = some parsed ∧
      sameShape (QVal.obj [("in".toList, .arr [.str "gt\\lt".toList, .str "\"in\"".toList]),
        ("a in b".toList, .obj [("lte".toList, .str "in\n".toList)])]) parsed = true := by
  obtain ⟨parsed, h1, h2, _⟩ := (rewriting_yields_valid_json
    (QVal.obj [("in".toList, .arr [.str "gt\\lt".toList, .str "\"in\"".toList]),
      ("a in b".toList, .obj [("lte".toList, .str "in\n".toList)])])
    exUser hostileQuery (by decide) (by decide)).2.1
  exact ⟨by decide, by decide, by decide, parsed, h1, h2⟩

/-! ## The handlers by id: lookup and ownership check (C11) -/

/-- C12, evaluated.  The collection holds one call of another user, answered.  The caller,
who is not an administrator, syncs one call without an external id: the lookup
`findOne({ id: undefined })` selects the other user's call (with `strictQuery` as well,
where the filter is emptied), which is then overwritten without an ownership check: the
reply counts one update and the other user's call is now declined.  The same happens to
another user's message.  And `updateCall`, which does check the owner, lets the body set
`user`: after the owner's update the call 0 belongs to the other user. -/
theorem sync_overwrites_foreign_record :
    exCaller.id = exUser ∧ exCaller.role ≠ "admin".toList ∧ exUser ≠ otherUser ∧
    otherWorld.store.docs.map (fun d => (d._id, d.owner, lookup "status".toList d.fields))
      = [(0, some otherUser, some (Json.ofStr "answered".toList))] ∧
    (syncCalls (exEnv false) exUser [exCandidate] otherWorld).2
      = .success 200 { added := 0, updated := 1, total := 1 } ∧
    (syncCalls (exEnv false) exUser [exCandidate] otherWorld).1.store.docs.map
        (fun d => (d._id, d.owner, lookup "status".toList d.fields))
      = [(0, some otherUser, some (Json.ofStr "declined".toList))] ∧
    (syncCalls (exEnv true) exUser [exCandidate] otherWorld).2
      = .success 200 { added := 0, updated := 1, total := 1 } ∧
    (syncCalls (exEnv true) exUser [exCandidate] otherWorld).1.store.docs.map
        (fun d => (d._id, d.owner, lookup "status".toList d.fields))
      = [(0, some otherUser, some (Json.ofStr "declined".toList))] ∧
    otherMessageWorld.store.docs.map
        (fun d => (d._id, d.owner, lookup "content".toList d.fields))
      = [(0, some otherUser, some (Json.ofStr "hello".toList))] ∧
    (syncMessages (exEnv false) exUser
        [[("phoneNumber".toList, Json.ofStr "5551111".toList),
          ("direction".toList, Json.ofStr "outgoing".toList),
          ("content".toList, Json.ofStr "overwritten".toList)]] otherMessageWorld).1.store.docs.map
        (fun d => (d._id, d.owner, lookup "content".toList d.fields))
      = [(0, some otherUser, some (Json.ofStr "overwritten".toList))] ∧
    twoUserWorld.store.docs.map (fun d => (d._id, d.owner))
      = [(0, some exUser), (1, some otherUser)] ∧
    (updateCall (exEnv false) exCaller (some 0)
        (exBody "answered" ++ [("user".toList, Json.ofStr otherUser)]) twoUserWorld).1.store.docs.map
        (fun d => (d._id, d.owner))
      = [(0, some otherUser), (1, some otherUser)] := by
  refine ⟨rfl, by decide, by decide, by decide, by decide, by decide, by decide, by decide,
    by decide, by decide, by decide, by decide⟩

/-! ## The timestamp `createdAt` (C13) -/

/-- The middleware accepts exactly the users a supplied, verified token names. -/
theorem authenticate_accepted (auth : AuthEnv) (token : Option Str) (user : User) :
    authenticate auth token = .accepted user ↔
      ∃ t decodedId, token = some t ∧ t ≠ [] ∧ auth.verify t = some decodedId ∧
        auth.findUser decodedId = some (some user) := by
  unfold authenticate
  constructor
  · intro h
    cases token with
    | none => cases h
    | some t =>
      simp only at h
      by_cases ht : t.isEmpty = true
      · rw [if_pos ht] at h; cases h
      · rw [if_neg ht] at h
        cases hv : auth.verify t with
        | none => rw [hv] at h; cases h
        | some did =>
          rw [hv] at h
          simp only at h
          cases hu : auth.findUser did with
          | none => rw [hu] at h; cases h
          | some r =>
            rw [hu] at h
            cases r with
            | none => cases h
            | some u =>
              simp only at h
              injection h with h
              subst h
              refine ⟨t, did, rfl, ?_, hv, hu⟩
              intro e
              subst e
              exact ht rfl
  · rintro ⟨t, did, rfl, ht, hv, hu⟩
    have hne : ¬ t.isEmpty = true := by
      intro e
      exact ht (List.isEmpty_iff.mp e)
    simp only [if_neg hne, hv, hu]

/-- The outcomes of the middleware. -/
theorem authenticate_cases (auth : AuthEnv) (token : Option Str) :
    authenticate auth token = .rejected "Authentication error: Token not provided".toList ∨
    authenticate auth token = .rejected "Authentication error: Invalid token".toList ∨
    authenticate auth token = .rejected "User not found".toList ∨
    ∃ user, authenticate auth token = .accepted user := by
  unfold authenticate
  cases token with
  | none => exact Or.inl rfl
  | some t =>
    simp only
    by_cases ht : t.isEmpty = true
    · rw [if_pos ht]; exact Or.inl rfl
    · rw [if_neg ht]
      cases auth.verify t with
      | none => exact Or.inr (Or.inl rfl)
      | some did =>
        simp only
        cases auth.findUser did with
        | none => exact Or.inr (Or.inl rfl)
        | some r =>
          cases r with
          | none => exact Or.inr (Or.inr (Or.inl rfl))
          | some u => exact Or.inr (Or.inr (Or.inr ⟨u, rfl⟩))

theorem connect_accepted {auth : AuthEnv} {token : Option Str} {user : User}
    (h : authenticate auth token = .accepted user) (hub : Hub) (sid : Nat) :
    connect auth hub sid token =
      ({ sockets := hub.sockets ++ [Socket.mk sid user [userRoom user]] }, none) := by
  unfold connect
  rw [h]

theorem connect_rejected {auth : AuthEnv} {token : Option Str} {message : Str}
    (h : authenticate auth token = .rejected message) (hub : Hub) (sid : Nat) :
    connect auth hub sid token = (hub, some message) := by
  unfold connect
  rw [h]

/-- In a reachable hub every socket is in the room of its user and in no other room, its
user was authenticated, and no two sockets share an id. -/
theorem reachable_invariant {auth : AuthEnv} {hub : Hub} (h : Reachable auth hub) :
    (∀ s ∈ hub.sockets, s.rooms = [userRoom s.user] ∧ Authenticated auth s.user) ∧
    (hub.sockets.map Socket.id).Nodup := by
  induction h with
  | start => exact ⟨fun s hs => (by cases hs), List.nodup_nil⟩
  | @connect hub sid token _ hfresh ih =>
    rcases authenticate_cases auth token with h | h | h | ⟨user, h⟩
    · rw [connect_rejected h]; exact ih
    · rw [connect_rejected h]; exact ih
    · rw [connect_rejected h]; exact ih
    · rw [connect_accepted h]
      simp only
      constructor
      · intro s hs
        rcases List.mem_append.mp hs with hs | hs
        · exact ih.1 s hs
        · rw [List.mem_singleton] at hs
          subst hs
          obtain ⟨t, did, _, ht, hv, hu⟩ := (authenticate_accepted auth token user).mp h
          exact ⟨rfl, t, did, ht, hv, hu⟩
      · rw [List.map_append, List.nodup_append]
        refine ⟨ih.2, List.nodup_singleton _, ?_⟩
        intro a ha hb
        simp only [List.map_cons, List.map_nil, List.mem_singleton] at hb
        obtain ⟨s, hs, hsa⟩ := List.mem_map.mp ha
        exact hfresh s hs (hsa.trans hb)
  | @disconnect hub sid _ ih =>
    unfold disconnect
    simp only
    constructor
    · intro s hs
      exact ih.1 s (List.mem_of_mem_filter hs)
    · exact (List.Nodup.sublist ((List.filter_sublist _).map Socket.id) ih.2)

/-- Two users have the same room exactly when they have the same id. -/
theorem userRoom_eq_iff (u v : User) : userRoom u = userRoom v ↔ u._id = v._id := by
  unfold userRoom
  exact List.append_right_inj _

/-- An emission to a user's room, in a hub whose sockets are in the room of their user
only. -/
theorem emitTo_userRoom {π : Type} (hub : Hub)
    (hrooms : ∀ s ∈ hub.sockets, s.rooms = [userRoom s.user])
    (u : User) (event : ServerEvent) (payload : π) :
    emitTo hub (userRoom u) event payload =
      (joinedUnder hub u._id).map fun s =>
        { socket := s.id, event := event, payload := payload } := by
  unfold emitTo joinedUnder
  congr 1
  apply List.filter_congr
  intro s hs
  rw [hrooms s hs]
  by_cases h : s.user._id = u._id
  · have : userRoom u = userRoom s.user := (userRoom_eq_iff _ _).mpr h.symm
    simp [h, this]
  · have : userRoom u ≠ userRoom s.user := fun e => h ((userRoom_eq_iff _ _).mp e).symm
    simp [h, this]

/-- C14: realtime isolation.  In every reachable state of the hub, when a connected
socket of user u sends `new_call`, `update_call`, `new_message` or `update_message` with
a payload, the deliveries are exactly one per connection joined under u, each carrying
`call_update` (for the two call events) or `message_update` (for the two message events)
with the payload unchanged; a connection of the hub receives the event exactly when its
user's id is u, the sender included, and none receives it twice. -/
theorem relay_reaches_own_connections {π : Type} (auth : AuthEnv) (hub : Hub)
    (hreach : Reachable auth hub) (sender : Socket) (hsender : sender ∈ hub.sockets)
    (event : ClientEvent) (payload : π) :
    onEvent hub sender event payload =
      (joinedUnder hub sender.user._id).map
        (fun s => Delivery.mk s.id (relayedEvent event) payload) ∧
    (∀ d ∈ onEvent hub sender event payload,
      d.payload = payload ∧ d.event = relayedEvent event) ∧
    (∀ s ∈ hub.sockets,
      s.id ∈ (onEvent hub sender event payload).map Delivery.socket ↔
        s.user._id = sender.user._id) ∧
    sender.id ∈ (onEvent hub sender event payload).map Delivery.socket ∧
    ((onEvent hub sender event payload).map Delivery.socket).Nodup := by
  obtain ⟨hinv, hnodup⟩ := reachable_invariant hreach
  have hrooms : ∀ s ∈ hub.sockets, s.rooms = [userRoom s.user] := fun s hs => (hinv s hs).1
  have heq : onEvent hub sender event payload =
      (joinedUnder hub sender.user._id).map
        (fun s => Delivery.mk s.id (relayedEvent event) payload) := by
    cases event <;> exact emitTo_userRoom hub hrooms sender.user _ payload
  have hmap : (onEvent hub sender event payload).map Delivery.socket =
      (joinedUnder hub sender.user._id).map Socket.id := by
    rw [heq, List.map_map]
    rfl
  have hsub : (joinedUnder hub sender.user._id).Sublist hub.sockets := List.filter_sublist _
  have hiff : ∀ s ∈ hub.sockets,
      s.id ∈ (joinedUnder hub sender.user._id).map Socket.id ↔
        s.user._id = sender.user._id := by
    intro s hs
    constructor
    · intro h
      obtain ⟨s2, hs2, hid⟩ := List.mem_map.mp h
      have hs2mem : s2 ∈ hub.sockets := hsub.subset hs2
      have hs2eq : s2 = s := List.inj_on_of_nodup_map hnodup hs2mem hs hid
      subst hs2eq
      unfold joinedUnder at hs2
      simpa using (List.mem_filter.mp hs2).2
    · intro h
      refine List.mem_map.mpr ⟨s, ?_, rfl⟩
      unfold joinedUnder
      exact List.mem_filter.mpr ⟨hs, by simpa using h⟩
  refine ⟨heq, ?_, ?_, ?_, ?_⟩
  · intro d hd
    rw [heq] at hd
    obtain ⟨s, _, rfl⟩ := List.mem_map.mp hd
    exact ⟨rfl, rfl⟩
  · intro s hs
    rw [hmap]
    exact hiff s hs
  · rw [hmap]
    exact (hiff sender hsender).mpr rfl
  · rw [hmap]
    exact List.Nodup.sublist (hsub.map Socket.id) hnodup

/-- The example hub is reachable. -/
theorem exHub_reachable : Reachable exAuth exHub :=
  Reachable.connect 3 (some "alice".toList)
    (Reachable.connect 2 (some "bob".toList)
      (Reachable.connect 1 (some "alice".toList) Reachable.start (by decide)) (by decide))
    (by decide)

/-- C14, at the example hub: the first device of Alice sends `update_call`; her two
devices (sockets 1 and 3) receive `call_update`, Bob's socket 2 does not. -/
theorem relay_reaches_own_connections_witness :
    Socket.mk 1 exAlice [userRoom exAlice] ∈ exHub.sockets ∧
    (onEvent exHub (Socket.mk 1 exAlice [userRoom exAlice]) .update_call
        (exCall "c1" "5551111" "answered")).map
        (fun d => (d.socket, d.event, d.payload))
      = [(1, .call_update, exCall "c1" "5551111" "answered"),
         (3, .call_update, exCall "c1" "5551111" "answered")] := by
  have h := (relay_reaches_own_connections exAuth exHub exHub_reachable
    (Socket.mk 1 exAlice [userRoom exAlice]) (by decide) .update_call
    (exCall "c1" "5551111" "answered")).1
  refine ⟨by decide, ?_⟩
  rw [h]
  decide

/-- C15: a connection joins a room only after authentication.  A connection attempt
succeeds exactly when a non-empty token was supplied, the token verified and the id it
carries names a user that was found; the hub then gains one socket, of that user, whose
only room is the room keyed by the user's id.  A missing or empty token is rejected with
`Authentication error: Token not provided`, a token that fails verification (or a failing
user lookup) with `Authentication error: Invalid token`, a token that names no user with
`User not found`; every rejected attempt leaves the hub as it is, so nothing is joined.
Hence in every reachable hub each socket is in the room of its authenticated user and in
no other room. -/
theorem join_requires_authentication (auth : AuthEnv) (hub : Hub) (sid : Nat)
    (token : Option Str) :
    ((connect auth hub sid token).2 = none ↔
      ∃ t decodedId user, token = some t ∧ t ≠ [] ∧ auth.verify t = some decodedId ∧
        auth.findUser decodedId = some (some user)) ∧
    (∀ t decodedId user, token = some t → t ≠ [] → auth.verify t = some decodedId →
      auth.findUser decodedId = some (some user) →
      connect auth hub sid token =
        (Hub.mk (hub.sockets ++ [Socket.mk sid user [userRoom user]]), none)) ∧
    ((token = none ∨ token = some []) →
      connect auth hub sid token =
        (hub, some "Authentication error: Token not provided".toList)) ∧
    (∀ t, token = some t → t ≠ [] → auth.verify t = none →
      connect auth hub sid token = (hub, some "Authentication error: Invalid token".toList)) ∧
    (∀ t decodedId, token = some t → t ≠ [] → auth.verify t = some decodedId →
      auth.findUser decodedId = none →
      connect auth hub sid token = (hub, some "Authentication error: Invalid token".toList)) ∧
    (∀ t decodedId, token = some t → t ≠ [] → auth.verify t = some decodedId →
      auth.findUser decodedId = some none →
      connect auth hub sid token = (hub, some "User not found".toList)) ∧
    (∀ message, (connect auth hub sid token).2 = some message →
      (connect auth hub sid token).1 = hub) ∧
    (Reachable auth hub →
      ∀ s ∈ hub.sockets, s.rooms = [userRoom s.user] ∧ Authenticated auth s.user) := by
  have hne : ∀ t : Str, t ≠ [] → ¬ t.isEmpty = true :=
    fun t ht e => ht (List.isEmpty_iff.mp e)
  refine ⟨?_, ?_, ?_, ?_, ?_, ?_, ?_, fun h => (reachable_invariant h).1⟩
  · constructor
    · intro h
      rcases authenticate_cases auth token with h1 | h1 | h1 | ⟨user, h1⟩
      · rw [connect_rejected h1] at h; cases h
      · rw [connect_rejected h1] at h; cases h
      · rw [connect_rejected h1] at h; cases h
      · obtain ⟨t, did, h2⟩ := (authenticate_accepted auth token user).mp h1
        exact ⟨t, did, user, h2⟩
    · rintro ⟨t, did, user, h2⟩
      rw [connect_accepted ((authenticate_accepted auth token user).mpr ⟨t, did, h2⟩)]
  · intro t did user h1 h2 h3 h4
    exact connect_accepted ((authenticate_accepted auth token user).mpr ⟨t, did, h1, h2, h3, h4⟩)
      hub sid
  · intro h
    apply connect_rejected
    rcases h with h | h <;> subst h <;> rfl
  · intro t h1 h2 h3
    apply connect_rejected
    subst h1
    unfold authenticate
    simp only [if_neg (hne t h2), h3]
  · intro t did h1 h2 h3 h4
    apply connect_rejected
    subst h1
    unfold authenticate
    simp only [if_neg (hne t h2), h3, h4]
  · intro t did h1 h2 h3 h4
    apply connect_rejected
    subst h1
    unfold authenticate
    simp only [if_neg (hne t h2), h3, h4]
  · intro message h
    rcases authenticate_cases auth token with h1 | h1 | h1 | ⟨user, h1⟩
    · rw [connect_rejected h1]
    · rw [connect_rejected h1]
    · rw [connect_rejected h1]
    · rw [connect_accepted h1] at h; cases h

/-- C15, at the example hub: every socket is in the room of its user only, and the
attempts without a token, with a forged token and with a token that names no user are
rejected and leave the hub as it is. -/
theorem join_requires_authentication_witness :
    Reachable exAuth exHub ∧
    exHub.sockets.map (fun s => (s.id, s.user._id, s.rooms))
      = [(1, exUser, ["user:".toList ++ exUser]), (2, otherUser, ["user:".toList ++ otherUser]),
         (3, exUser, ["user:".toList ++ exUser])] ∧
    (∀ s ∈ exHub.sockets, s.rooms = [userRoom s.user] ∧ Authenticated exAuth s.user) ∧
    connect exAuth exHub 4 none
      = (exHub, some "Authentication error: Token not provided".toList) ∧
    connect exAuth exHub 4 (some "forged".toList)
      = (exHub, some "Authentication error: Invalid token".toList) ∧
    connect exAuth exHub 4 (some "ghost".toList) = (exHub, some "User not found".toList) :=
  ⟨exHub_reachable, by decide,
    (join_requires_authentication exAuth exHub 4 none).2.2.2.2.2.2.2 exHub_reachable,
    by decide, by decide, by decide⟩

end CallSync
